import Mathlib

/-!
Verification of the record reconciliation and migration pipeline of
startlink-labs/start-connect (Rust, Tauri desktop utility migrating
Salesforce CSV exports into HubSpot).

The development shallowly embeds the relevant Rust functions:

* `src-tauri/src/csv/processor.rs` — `group_records_by_salesforce_id`,
  `group_chatter_records`, `validate_csv_files`, `extract_target_records`,
  `analyze_object_groups`;
* `src-tauri/src/hubspot.rs` — `batch_find_records`,
  `create_note_for_record`'s association-type table;
* `src-tauri/src/hubspot/object_types.rs` — `get_object_type_id`;
* `src-tauri/src/commands/business.rs` — `process_single_record`, the
  per-prefix resolution/execution loop of `process_file_mapping`, and the
  chatter attachment-upload loop of `process_chatter_migration`.

Rust `HashMap`s are modelled as association lists (`List (κ × α)`).  Per-key
contents are preserved exactly by this modelling; the iteration order of a
Rust `HashMap` is unspecified, so only per-key facts are proved about values
that flow through map iteration.  Remote HubSpot endpoints are modelled as
oracles (pure response functions) plus an explicit event trace recording the
calls the code makes, so that "checks existence before uploading" and
"sleeps between batches" are provable statements about traces.
-/

/-! ### Association-list model of Rust HashMap -/

/-- Lookup of a key (Rust `HashMap::get`). -/
def alGet {κ α : Type} [DecidableEq κ] (m : List (κ × α)) (k : κ) : Option α :=
  match m with
  | [] => none
  | (k', v) :: rest => if k' = k then some v else alGet rest k

/-- Key-membership test (Rust `HashMap::contains_key`). -/
def alContains {κ α : Type} [DecidableEq κ] (m : List (κ × α)) (k : κ) : Bool :=
  (alGet m k).isSome

/-- Lookup with a default (Rust `map.get(k).cloned().unwrap_or_default()`). -/
def alGetD {κ α : Type} [DecidableEq κ] (m : List (κ × α)) (k : κ) (d : α) : α :=
  (alGet m k).getD d

/-- Rust `map.entry(k).or_default().push(v)`: append `v` to the bucket of
`k`, creating the bucket when absent. -/
def alPush {κ α : Type} [DecidableEq κ] (m : List (κ × List α)) (k : κ) (v : α) :
    List (κ × List α) :=
  match m with
  | [] => [(k, [v])]
  | (k', vs) :: rest =>
    if k' = k then (k', vs ++ [v]) :: rest else (k', vs) :: alPush rest k v

/-- Rust `map.insert(k, v)`: replace the binding of `k`, or append it. -/
def alInsert {κ α : Type} [DecidableEq κ] (m : List (κ × α)) (k : κ) (v : α) :
    List (κ × α) :=
  match m with
  | [] => [(k, v)]
  | (k', v') :: rest =>
    if k' = k then (k, v) :: rest else (k', v') :: alInsert rest k v

/-- Insert all pairs in order (the merge `found_records.insert(..)` loop). -/
def alInsertAll {κ α : Type} [DecidableEq κ] (m : List (κ × α))
    (ps : List (κ × α)) : List (κ × α) :=
  ps.foldl (fun acc p => alInsert acc p.1 p.2) m

/-- The keys of an association list. -/
def alKeys {κ α : Type} (m : List (κ × α)) : List κ := m.map Prod.fst

/-- A `for`-loop that buckets elements of `l` by `keyOf`, pushing `v` for
each element `b` with `valOf b = some v` (elements with `valOf b = none` are
skipped).  This is the shared shape of the grouping loops in
`processor.rs`. -/
def alGroupBy {κ α β : Type} [DecidableEq κ] (keyOf : β → κ) (valOf : β → Option α)
    (l : List β) (acc : List (κ × List α)) : List (κ × List α) :=
  l.foldl (fun acc b =>
    match valOf b with
    | some v => alPush acc (keyOf b) v
    | none => acc) acc

theorem alGet_alPush_self {κ α : Type} [DecidableEq κ]
    (m : List (κ × List α)) (k : κ) (v : α) :
    alGet (alPush m k v) k = some ((alGetD m k []) ++ [v]) := by
  induction m with
  | nil => simp [alPush, alGet, alGetD]
  | cons p rest ih =>
    obtain ⟨k', vs⟩ := p
    by_cases h : k' = k
    · subst h; simp [alPush, alGet, alGetD]
    · simp [alPush, alGet, alGetD, h] at ih ⊢; exact ih

theorem alGet_alPush_other {κ α : Type} [DecidableEq κ]
    (m : List (κ × List α)) (k k' : κ) (v : α) (h : k ≠ k') :
    alGet (alPush m k v) k' = alGet m k' := by
  induction m with
  | nil => simp [alPush, alGet, h]
  | cons p rest ih =>
    obtain ⟨k₀, vs⟩ := p
    by_cases h0 : k₀ = k
    · subst h0; simp [alPush, alGet, h]
    · simp [alPush, alGet, h0]
      by_cases h1 : k₀ = k'
      · simp [h1]
      · simp [h1]; exact ih

/-- Looking up a key in the result of a grouping loop returns the bucket of
the accumulator extended with the contributions, in input order, of exactly
the elements whose key matches. -/
theorem alGetD_alGroupBy {κ α β : Type} [DecidableEq κ]
    (keyOf : β → κ) (valOf : β → Option α) (l : List β) (k : κ) :
    ∀ acc, alGetD (alGroupBy keyOf valOf l acc) k [] =
      alGetD acc k [] ++
        (l.filter (fun b => keyOf b = k)).filterMap valOf := by
  induction l with
  | nil => intro acc; simp [alGroupBy]
  | cons b rest ih =>
    intro acc
    by_cases hk : keyOf b = k
    · cases hv : valOf b with
      | none =>
        simp only [alGroupBy, List.foldl_cons, hv]
        simpa [List.filter_cons, hk, hv, alGroupBy] using ih acc
      | some v =>
        simp only [alGroupBy, List.foldl_cons, hv]
        have := ih (alPush acc (keyOf b) v)
        simp only [alGroupBy] at this
        rw [this]
        simp [List.filter_cons, hk, hv, alGetD, hk ▸ alGet_alPush_self acc (keyOf b) v,
          alGetD]
    · cases hv : valOf b with
      | none =>
        simp only [alGroupBy, List.foldl_cons, hv]
        simpa [List.filter_cons, hk, alGroupBy] using ih acc
      | some v =>
        simp only [alGroupBy, List.foldl_cons, hv]
        have := ih (alPush acc (keyOf b) v)
        simp only [alGroupBy] at this
        rw [this]
        have hne : keyOf b ≠ k := hk
        simp [List.filter_cons, hk, alGetD, alGet_alPush_other acc (keyOf b) k v hne]

/-! ### File flow: `group_records_by_salesforce_id` (processor.rs:321-345)

The Rust function receives the `(LinkedEntityId, ContentDocumentId)` pairs of
one prefix and the map of Salesforce ids found in HubSpot; it buckets the
content ids of the resolved parents by parent id.  Nothing is
deduplicated. -/

/-- `ProcessableRecord` (processor.rs:48-54). -/
structure ProcessableRecord where
  salesforce_id : String
  content_document_ids : List String
deriving DecidableEq, Repr

/-- `CsvProcessor::group_records_by_salesforce_id` (processor.rs:321-345):
keep only pairs whose parent is in `found_hubspot_records`, bucket the
content ids by parent (`entry(..).or_default().push(..)`), and convert each
bucket into a `ProcessableRecord`. -/
def group_records_by_salesforce_id (records : List (String × String))
    (found_hubspot_records : List (String × String)) : List ProcessableRecord :=
  (alGroupBy Prod.fst
      (fun p => if alContains found_hubspot_records p.1 then some p.2 else none)
      records []).map (fun kv => ⟨kv.1, kv.2⟩)

theorem alGet_mem {κ α : Type} [DecidableEq κ] {m : List (κ × α)} {k : κ} {v : α}
    (h : alGet m k = some v) : (k, v) ∈ m := by
  induction m with
  | nil => simp [alGet] at h
  | cons p rest ih =>
    obtain ⟨k', v'⟩ := p
    by_cases hk : k' = k
    · subst hk
      simp [alGet] at h
      simp [h]
    · simp [alGet, hk] at h
      exact List.mem_cons_of_mem _ (ih h)

theorem count_map_snd_filter_fst (records : List (String × String)) (p c : String) :
    List.count c ((records.filter (fun q => q.1 = p)).map Prod.snd) =
      List.count (p, c) records := by
  induction records with
  | nil => simp
  | cons q rest ih =>
    obtain ⟨a, b⟩ := q
    by_cases ha : a = p
    · subst ha
      by_cases hb : b = c
      · subst hb
        simp [List.filter_cons, List.count_cons, ih]
      · have : ((a, b) : String × String) ≠ (a, c) := by simp [hb]
        simp [List.filter_cons, List.count_cons, hb, this, ih]
    · have : ((a, b) : String × String) ≠ (p, c) := by simp [ha]
      simp [List.filter_cons, List.count_cons, ha, this, ih]

/-- C1 counterexample: a parent linked twice to the same content item yields
a `ProcessableRecord` whose `content_document_ids` contains the item twice —
`group_records_by_salesforce_id` performs no deduplication. -/
theorem c1_counterexample :
    group_records_by_salesforce_id [("001A", "069X"), ("001A", "069X")]
        [("001A", "HS1")] =
      [⟨"001A", ["069X", "069X"]⟩] ∧
    List.count "069X"
        (ProcessableRecord.content_document_ids ⟨"001A", ["069X", "069X"]⟩) = 2 := by
  constructor
  · rfl
  · decide

/-- C1 (amended): in the file-link flow, `group_records_by_salesforce_id`
preserves duplicates: for a parent `p` found in HubSpot and linked to content
item `c`, the parent's `ProcessableRecord` lists `c` once per link row — its
multiplicity in `content_document_ids` equals the number of `(p, c)` rows in
the input (deduplication happens only for feed-item attachment ids in
`group_chatter_records`). -/
theorem c1_amended (records found : List (String × String)) (p c : String)
    (hmem : (p, c) ∈ records) (hres : alContains found p = true) :
    ∃ r ∈ group_records_by_salesforce_id records found,
      r.salesforce_id = p ∧
      List.count c r.content_document_ids = List.count (p, c) records := by
  have hbucket := alGetD_alGroupBy Prod.fst
    (fun q : String × String => if alContains found q.1 then some q.2 else none)
    records p []
  have hmap : ((records.filter (fun q => q.1 = p)).filterMap
      (fun q : String × String => if alContains found q.1 then some q.2 else none)) =
      (records.filter (fun q => q.1 = p)).map Prod.snd := by
    rw [← List.filterMap_eq_map]
    apply List.filterMap_congr
    intro q hq
    have : q.1 = p := by
      have := List.of_mem_filter hq
      exact of_decide_eq_true this
    simp [this, hres, Function.comp]
  rw [hmap] at hbucket
  have hbucket' : alGetD (alGroupBy Prod.fst
      (fun q : String × String => if alContains found q.1 then some q.2 else none)
      records []) p [] =
      (records.filter (fun q => q.1 = p)).map Prod.snd := by
    simpa [alGetD, alGet] using hbucket
  have hnonempty : (records.filter (fun q : String × String => q.1 = p)).map Prod.snd ≠ [] := by
    simp only [ne_eq, List.map_eq_nil_iff, List.filter_eq_nil_iff, not_forall]
    exact ⟨(p, c), hmem, by simp⟩
  cases hgo : alGet (alGroupBy Prod.fst
      (fun q : String × String => if alContains found q.1 then some q.2 else none)
      records []) p with
  | none =>
    exfalso
    apply hnonempty
    rw [← hbucket']
    simp [alGetD, hgo]
  | some bucket =>
    have hbval : bucket = (records.filter (fun q => q.1 = p)).map Prod.snd := by
      rw [← hbucket']
      simp [alGetD, hgo]
    refine ⟨⟨p, bucket⟩, ?_, rfl, ?_⟩
    · unfold group_records_by_salesforce_id
      exact List.mem_map.2 ⟨(p, bucket), alGet_mem hgo, rfl⟩
    · show List.count c bucket = _
      rw [hbval]
      exact count_map_snd_filter_fst records p c

/-- C1 amended, witness: the doubled link row of the counterexample yields
multiplicity 2 = the number of link rows. -/
theorem c1_amended_witness :
    ∃ r ∈ group_records_by_salesforce_id [("001A", "069X"), ("001A", "069X")]
        [("001A", "HS1")],
      r.salesforce_id = "001A" ∧
      List.count "069X" r.content_document_ids =
        List.count ("001A", "069X") [("001A", "069X"), ("001A", "069X")] :=
  c1_amended [("001A", "069X"), ("001A", "069X")] [("001A", "HS1")] "001A" "069X"
    (by decide) (by decide)

/-! ### Object-type tables (hubspot.rs:301-340, hubspot/object_types.rs:6-43) -/

/-- The association-type-id match in `create_note_for_record`
(hubspot.rs:309-315): an if-chain over the object type, defaulting to the
contacts association id. -/
def create_note_association_type_id (object_type : String) : Nat :=
  if object_type = "contacts" then 202
  else if object_type = "companies" then 190
  else if object_type = "deals" then 214
  else if object_type = "tickets" then 226
  else 202

/-- The static table of `get_object_type_id` (object_types.rs:7-37). -/
def objectTypeIdTable : List (String × String) :=
  [("companies", "0-2"), ("contacts", "0-1"), ("deals", "0-3"), ("tickets", "0-5"),
   ("appointments", "0-421"), ("calls", "0-48"), ("communications", "0-18"),
   ("courses", "0-410"), ("emails", "0-49"), ("feedback_submissions", "0-19"),
   ("invoices", "0-53"), ("leads", "0-136"), ("line_items", "0-8"),
   ("listings", "0-420"), ("marketing_events", "0-54"), ("meetings", "0-47"),
   ("notes", "0-46"), ("orders", "0-123"), ("payments", "0-101"),
   ("postal_mail", "0-116"), ("products", "0-7"), ("quotes", "0-14"),
   ("services", "0-162"), ("subscriptions", "0-69"), ("tasks", "0-27"),
   ("users", "0-115")]

/-- `get_object_type_id` (object_types.rs:6-43): look the name up in the
fixed table, falling back to `"2-" ++ name` when absent. -/
def get_object_type_id (object_name : String) : String :=
  match alGet objectTypeIdTable object_name with
  | some s => s
  | none => "2-" ++ object_name

theorem alGet_eq_none_of_forall_ne {κ α : Type} [DecidableEq κ]
    {m : List (κ × α)} {k : κ} (h : ∀ p ∈ m, p.1 ≠ k) : alGet m k = none := by
  induction m with
  | nil => rfl
  | cons p rest ih =>
    obtain ⟨k', v⟩ := p
    have hk : k' ≠ k := h (k', v) (List.mem_cons_self _ _)
    simp only [alGet, if_neg hk]
    exact ih (fun q hq => h q (List.mem_cons_of_mem _ hq))

/-- C8: the note-association table is exactly contacts=202, companies=190,
deals=214, tickets=226 with 202 for every other object type, and
`get_object_type_id` returns the fixed table value for the known standard
objects and falls back to `"2-" ++ name` for every unrecognized name. -/
theorem c8_object_type_tables :
    (create_note_association_type_id "contacts" = 202 ∧
     create_note_association_type_id "companies" = 190 ∧
     create_note_association_type_id "deals" = 214 ∧
     create_note_association_type_id "tickets" = 226) ∧
    (∀ s : String, s ∉ (["contacts", "companies", "deals", "tickets"] : List String) →
      create_note_association_type_id s = 202) ∧
    (∀ p ∈ objectTypeIdTable, get_object_type_id p.1 = p.2) ∧
    (∀ s : String, s ∉ alKeys objectTypeIdTable →
      get_object_type_id s = "2-" ++ s) := by
  refine ⟨⟨rfl, rfl, rfl, rfl⟩, ?_, ?_, ?_⟩
  · intro s hs
    simp only [List.mem_cons, List.not_mem_nil, or_false, not_or] at hs
    obtain ⟨h1, h2, h3, h4⟩ := hs
    simp [create_note_association_type_id, h1, h2, h3, h4]
  · intro p hp
    fin_cases hp <;> rfl
  · intro s hs
    have hne : ∀ p ∈ objectTypeIdTable, p.1 ≠ s := by
      intro p hp h
      exact hs (h ▸ List.mem_map_of_mem Prod.fst hp)
    simp [get_object_type_id, alGet_eq_none_of_forall_ne hne]

/-- C8 witness: an unrecognized custom object name takes both fallbacks. -/
theorem c8_object_type_tables_witness :
    create_note_association_type_id "p_custom_object" = 202 ∧
    get_object_type_id "p_custom_object" = "2-p_custom_object" :=
  ⟨c8_object_type_tables.2.1 "p_custom_object" (by decide),
   c8_object_type_tables.2.2.2 "p_custom_object" (by decide)⟩

/-! ### Byte-level model of Rust strings (for the `&id[..3]` slices)

`extract_target_records` (processor.rs:162-178) and `analyze_object_groups`
(processor.rs:419-431) guard on `id.len() >= 3` — a BYTE length — and then
take the byte slice `&id[..3]`, which panics when byte index 3 is not a
UTF-8 character boundary.  A Rust string is modelled as its list of unicode
scalar values; byte positions are derived from `Char.utf8Size`.  A panic is
modelled as `Except.error ()`. -/

/-- A Rust `String`: a sequence of unicode scalar values. -/
structure RStr where
  chars : List Char
deriving DecidableEq, Repr

/-- Rust `str::len`: the length in UTF-8 bytes. -/
def RStr.byteLen (s : RStr) : Nat := (s.chars.map Char.utf8Size).sum

/-- The byte positions that are UTF-8 character boundaries (0, and each
position immediately after a complete character). -/
def charBoundaries : List Char → List Nat
  | [] => [0]
  | c :: cs => 0 :: (charBoundaries cs).map (c.utf8Size + ·)

/-- Rust `str::is_char_boundary`. -/
def RStr.isCharBoundary (s : RStr) (i : Nat) : Bool :=
  (charBoundaries s.chars).contains i

/-- Take the characters making up the first `n` bytes; `none` when `n` does
not fall on a character boundary (including `n` beyond the end). -/
def takeBytes : List Char → Nat → Option (List Char)
  | _, 0 => some []
  | [], _ + 1 => none
  | c :: cs, n + 1 =>
    if c.utf8Size ≤ n + 1 then (takeBytes cs (n + 1 - c.utf8Size)).map (c :: ·)
    else none

/-- Rust `&s[..n]`: `none` models the slice panic. -/
def RStr.sliceToByte (s : RStr) (n : Nat) : Option RStr :=
  (takeBytes s.chars n).map RStr.mk

theorem takeBytes_isSome_iff (cs : List Char) :
    ∀ n : Nat, (takeBytes cs n).isSome = true ↔ n ∈ charBoundaries cs := by
  induction cs with
  | nil =>
    intro n
    cases n with
    | zero => simp [takeBytes, charBoundaries]
    | succ m => simp [takeBytes, charBoundaries]
  | cons c cs ih =>
    intro n
    cases n with
    | zero => simp [takeBytes, charBoundaries]
    | succ m =>
      by_cases h : c.utf8Size ≤ m + 1
      · have hmap : ((takeBytes cs (m + 1 - c.utf8Size)).map (c :: ·)).isSome =
            (takeBytes cs (m + 1 - c.utf8Size)).isSome := by
          cases takeBytes cs (m + 1 - c.utf8Size) <;> rfl
        simp only [takeBytes, if_pos h, hmap, charBoundaries]
        rw [ih (m + 1 - c.utf8Size)]
        constructor
        · intro hmem
          refine List.mem_cons_of_mem _ ?_
          refine List.mem_map.2 ⟨m + 1 - c.utf8Size, hmem, ?_⟩
          omega
        · intro hmem
          rcases List.mem_cons.1 hmem with h0 | hmem'
          · omega
          · rcases List.mem_map.1 hmem' with ⟨b, hb, hbe⟩
            have : b = m + 1 - c.utf8Size := by omega
            exact this ▸ hb
      · simp only [takeBytes, if_neg h, charBoundaries]
        constructor
        · intro hfalse; simp at hfalse
        · intro hmem
          rcases List.mem_cons.1 hmem with h0 | hmem'
          · omega
          · rcases List.mem_map.1 hmem' with ⟨b, _, hbe⟩
            omega

theorem sliceToByte_eq_none_of_not_boundary {s : RStr} {n : Nat}
    (h : s.isCharBoundary n = false) : s.sliceToByte n = none := by
  unfold RStr.sliceToByte
  cases htb : takeBytes s.chars n with
  | none => rfl
  | some l =>
    exfalso
    have hs : (takeBytes s.chars n).isSome = true := by simp [htb]
    rw [takeBytes_isSome_iff] at hs
    unfold RStr.isCharBoundary at h
    have hc : (charBoundaries s.chars).contains n = true :=
      List.elem_eq_true_of_mem hs
    rw [hc] at h
    exact absurd h (by simp)

/-- Rust `str::trim` (restricted to the ASCII whitespace recognized by
`Char.isWhitespace`; the ids this code consumes are ASCII). -/
def rustTrim (s : RStr) : RStr :=
  ⟨((s.chars.dropWhile Char.isWhitespace).reverse.dropWhile
      Char.isWhitespace).reverse⟩

/-- `ContentDocumentLinkRecord` (processor.rs:9-17), byte-level view. -/
structure LinkRowB where
  linked_entity_id : RStr
  content_document_id : RStr
deriving DecidableEq, Repr

/-- Rust `*object_groups.entry(k).or_insert(0) += 1`. -/
def alIncr {κ : Type} [DecidableEq κ] (m : List (κ × Nat)) (k : κ) :
    List (κ × Nat) :=
  match m with
  | [] => [(k, 1)]
  | (k', n) :: rest =>
    if k' = k then (k', n + 1) :: rest else (k', n) :: alIncr rest k

/-- Row loop of `CsvProcessor::extract_target_records` (processor.rs:162-178):
for each link row whose `LinkedEntityId` has byte length at least 3 and whose
`ContentDocumentId` is non-empty, slice the 3-byte type marker (`&id[..3]`,
a panic — `Except.error ()` — when byte 3 is not a character boundary) and,
when it is a configured mapping key, push the pair into its bucket. -/
def extract_target_records_rows (object_mappings : List RStr) :
    List LinkRowB → List (RStr × List (RStr × RStr)) →
    Except Unit (List (RStr × List (RStr × RStr)))
  | [], acc => Except.ok acc
  | row :: rest, acc =>
    if 3 ≤ row.linked_entity_id.byteLen ∧ row.content_document_id.chars ≠ [] then
      match row.linked_entity_id.sliceToByte 3 with
      | none => Except.error ()
      | some pre =>
        if pre ∈ object_mappings then
          extract_target_records_rows object_mappings rest
            (alPush acc pre (row.linked_entity_id, row.content_document_id))
        else extract_target_records_rows object_mappings rest acc
    else extract_target_records_rows object_mappings rest acc

/-- `CsvProcessor::extract_target_records`, starting from the empty map. -/
def extract_target_records (object_mappings : List RStr) (rows : List LinkRowB) :
    Except Unit (List (RStr × List (RStr × RStr))) :=
  extract_target_records_rows object_mappings rows []

/-- Row loop of `CsvProcessor::analyze_object_groups` (processor.rs:419-431):
each row's `LinkedEntityId` cell (absent cells are skipped) is trimmed; when
the trimmed id is non-empty and has byte length at least 3, `&id[0..3]` is
counted (the slice panics — `Except.error ()` — off a character boundary). -/
def analyze_object_groups_rows : List (Option RStr) → List (RStr × Nat) →
    Except Unit (List (RStr × Nat))
  | [], acc => Except.ok acc
  | cell :: rest, acc =>
    match cell with
    | none => analyze_object_groups_rows rest acc
    | some id =>
      let t := rustTrim id
      if t.chars ≠ [] ∧ 3 ≤ t.byteLen then
        match t.sliceToByte 3 with
        | none => Except.error ()
        | some pre => analyze_object_groups_rows rest (alIncr acc pre)
      else analyze_object_groups_rows rest acc

/-- `CsvProcessor::analyze_object_groups`, starting from the empty map. -/
def analyze_object_groups (cells : List (Option RStr)) :
    Except Unit (List (RStr × Nat)) :=
  analyze_object_groups_rows cells []

theorem extract_target_records_rows_panics (object_mappings : List RStr)
    (id : RStr) (hslice : id.sliceToByte 3 = none) :
    ∀ (rows : List LinkRowB) (row : LinkRowB)
      (acc : List (RStr × List (RStr × RStr))),
      row ∈ rows → row.linked_entity_id = id →
      3 ≤ row.linked_entity_id.byteLen → row.content_document_id.chars ≠ [] →
      extract_target_records_rows object_mappings rows acc = Except.error () := by
  intro rows
  induction rows with
  | nil => intro row acc hmem; exact absurd hmem (List.not_mem_nil row)
  | cons r rest ih =>
    intro row acc hmem hid h3 hcontent
    rcases List.mem_cons.1 hmem with heq | hmem'
    · subst heq
      simp only [extract_target_records_rows, hid, hslice]
      rw [if_pos ⟨hid ▸ h3, hcontent⟩]
    · by_cases hc : 3 ≤ r.linked_entity_id.byteLen ∧ r.content_document_id.chars ≠ []
      · cases hsl : r.linked_entity_id.sliceToByte 3 with
        | none => simp only [extract_target_records_rows, if_pos hc, hsl]
        | some pre =>
          by_cases hm : pre ∈ object_mappings
          · simp only [extract_target_records_rows, if_pos hc, hsl, if_pos hm]
            exact ih row _ hmem' hid h3 hcontent
          · simp only [extract_target_records_rows, if_pos hc, hsl, if_neg hm]
            exact ih row _ hmem' hid h3 hcontent
      · simp only [extract_target_records_rows, if_neg hc]
        exact ih row _ hmem' hid h3 hcontent

theorem analyze_object_groups_rows_panics (id : RStr)
    (hslice : (rustTrim id).sliceToByte 3 = none)
    (htrim : (rustTrim id).chars ≠ []) (h3 : 3 ≤ (rustTrim id).byteLen) :
    ∀ (cells : List (Option RStr)) (acc : List (RStr × Nat)),
      some id ∈ cells →
      analyze_object_groups_rows cells acc = Except.error () := by
  intro cells
  induction cells with
  | nil => intro acc hmem; exact absurd hmem (List.not_mem_nil _)
  | cons cell rest ih =>
    intro acc hmem
    rcases List.mem_cons.1 hmem with heq | hmem'
    · subst heq
      have hc : (rustTrim id).chars ≠ [] ∧ 3 ≤ (rustTrim id).byteLen := ⟨htrim, h3⟩
      simp only [analyze_object_groups_rows, if_pos hc, hslice]
    · cases cell with
      | none =>
        simp only [analyze_object_groups_rows]
        exact ih acc hmem'
      | some other =>
        by_cases hc : (rustTrim other).chars ≠ [] ∧ 3 ≤ (rustTrim other).byteLen
        · cases hsl : (rustTrim other).sliceToByte 3 with
          | none => simp only [analyze_object_groups_rows, if_pos hc, hsl]
          | some pre =>
            simp only [analyze_object_groups_rows, if_pos hc, hsl]
            exact ih _ hmem'
        · simp only [analyze_object_groups_rows, if_neg hc]
          exact ih acc hmem'

/-- C9: prefix extraction is total only on ids whose first three bytes are
complete characters.  For a record id of byte length at least 3 whose byte
index 3 is not a UTF-8 character boundary, both `extract_target_records`
(reached when the row's content id is non-empty) and `analyze_object_groups`
(reached when the id is its own trim and non-empty) panic on `&id[..3]` —
the whole call aborts (`Except.error ()` models the panic) rather than
erroring or dropping that record. -/
theorem c9_slice_panics (id : RStr) (h3 : 3 ≤ id.byteLen)
    (hb : id.isCharBoundary 3 = false) :
    (∀ (object_mappings : List RStr) (rows : List LinkRowB) (row : LinkRowB),
      row ∈ rows → row.linked_entity_id = id →
      row.content_document_id.chars ≠ [] →
      extract_target_records object_mappings rows = Except.error ()) ∧
    (∀ cells : List (Option RStr), some id ∈ cells → rustTrim id = id →
      analyze_object_groups cells = Except.error ()) := by
  have hslice : id.sliceToByte 3 = none := sliceToByte_eq_none_of_not_boundary hb
  constructor
  · intro object_mappings rows row hmem hid hcontent
    exact extract_target_records_rows_panics object_mappings id hslice rows row []
      hmem hid (hid ▸ h3) hcontent
  · intro cells hmem htrim
    have hchars : id.chars ≠ [] := by
      intro hnil
      have : id.byteLen = 0 := by simp [RStr.byteLen, hnil]
      omega
    refine analyze_object_groups_rows_panics id ?_ ?_ ?_ cells [] hmem
    · rw [htrim]; exact hslice
    · rw [htrim]; exact hchars
    · rw [htrim]; exact h3

/-- C9 witness: the id `"aあ"` (bytes `61 E3 81 82`) has byte length 4 but no
character boundary at byte 3; both functions panic on it. -/
theorem c9_slice_panics_witness :
    extract_target_records [] [⟨⟨['a', 'あ']⟩, ⟨['0']⟩⟩] = Except.error () ∧
    analyze_object_groups [some ⟨['a', 'あ']⟩] = Except.error () :=
  ⟨(c9_slice_panics ⟨['a', 'あ']⟩ (by decide) (by decide)).1 []
      [⟨⟨['a', 'あ']⟩, ⟨['0']⟩⟩] ⟨⟨['a', 'あ']⟩, ⟨['0']⟩⟩
      (List.mem_singleton.2 rfl) rfl (by decide),
   (c9_slice_panics ⟨['a', 'あ']⟩ (by decide) (by decide)).2
      [some ⟨['a', 'あ']⟩] (List.mem_singleton.2 rfl) (by decide)⟩

/-! ### Rust string ordering and stable sorting

Rust `String: Ord` compares UTF-8 byte sequences; on valid UTF-8 this is the
lexicographic order on unicode scalar values, modelled here on `String.data`.
`Vec::sort`/`sort_by` is a stable ascending sort; it is modelled by the
canonical stable insertion sort for the same total order (every stable sort
of a list under a total order produces the same output list). -/

/-- Lexicographic order on character lists (Rust byte-order on strings). -/
def listCharLe : List Char → List Char → Bool
  | [], _ => true
  | _ :: _, [] => false
  | a :: as, b :: bs =>
    if a < b then true
    else if b < a then false
    else listCharLe as bs

/-- Rust `a <= b` on `String`. -/
def strLe (a b : String) : Bool := listCharLe a.data b.data

theorem listCharLe_refl (l : List Char) : listCharLe l l = true := by
  induction l with
  | nil => rfl
  | cons a as ih => simpa [listCharLe, lt_irrefl] using ih

theorem listCharLe_total (a : List Char) :
    ∀ b, listCharLe a b = true ∨ listCharLe b a = true := by
  induction a with
  | nil => intro b; left; rfl
  | cons x as ih =>
    intro b
    cases b with
    | nil => right; rfl
    | cons y bs =>
      rcases lt_trichotomy x y with h | h | h
      · left; simp [listCharLe, h]
      · subst h
        rcases ih bs with h' | h'
        · left; simpa [listCharLe, lt_irrefl] using h'
        · right; simpa [listCharLe, lt_irrefl] using h'
      · right; simp [listCharLe, h]

theorem listCharLe_trans : ∀ {a b c : List Char}, listCharLe a b = true →
    listCharLe b c = true → listCharLe a c = true := by
  intro a
  induction a with
  | nil => intro b c _ _; rfl
  | cons x as ih =>
    intro b c hab hbc
    cases b with
    | nil => simp [listCharLe] at hab
    | cons y bs =>
      cases c with
      | nil => simp [listCharLe] at hbc
      | cons z cs =>
        simp only [listCharLe] at hab hbc ⊢
        rcases lt_trichotomy x y with hxy | hxy | hxy
        · rcases lt_trichotomy y z with hyz | hyz | hyz
          · simp [lt_trans hxy hyz]
          · subst hyz; simp [hxy]
          · rw [if_pos hxy] at hab
            rw [if_neg (not_lt_of_gt hyz), if_pos hyz] at hbc
            exact absurd hbc (by simp)
        · subst hxy
          rcases lt_trichotomy x z with hyz | hyz | hyz
          · simp [hyz]
          · subst hyz
            simp only [lt_irrefl, if_false] at hab hbc ⊢
            exact ih hab hbc
          · rw [if_neg (not_lt_of_gt hyz), if_pos hyz] at hbc
            exact absurd hbc (by simp)
        · rw [if_neg (not_lt_of_gt hxy), if_pos hxy] at hab
          exact absurd hab (by simp)

theorem strLe_refl (a : String) : strLe a a = true := listCharLe_refl a.data

theorem strLe_total (a b : String) : strLe a b = true ∨ strLe b a = true :=
  listCharLe_total a.data b.data

theorem strLe_trans {a b c : String} (h1 : strLe a b = true)
    (h2 : strLe b c = true) : strLe a c = true :=
  listCharLe_trans h1 h2

/-- Insert `x` before the first element whose key is not smaller: the stable
insertion position. -/
def orderedInsertByKey {α : Type} (key : α → String) (x : α) : List α → List α
  | [] => [x]
  | y :: ys =>
    if strLe (key x) (key y) then x :: y :: ys
    else y :: orderedInsertByKey key x ys

/-- Stable ascending sort by a string key (the model of Rust
`sort`/`sort_by` on the string comparator used in `group_chatter_records`). -/
def sortByKeyStable {α : Type} (key : α → String) : List α → List α
  | [] => []
  | x :: xs => orderedInsertByKey key x (sortByKeyStable key xs)

theorem mem_orderedInsertByKey {α : Type} (key : α → String) (x a : α) :
    ∀ l, a ∈ orderedInsertByKey key x l ↔ a = x ∨ a ∈ l := by
  intro l
  induction l with
  | nil => simp [orderedInsertByKey]
  | cons y ys ih =>
    by_cases h : strLe (key x) (key y) = true
    · simp [orderedInsertByKey, h]
    · simp only [orderedInsertByKey, if_neg h, List.mem_cons, ih]
      tauto

theorem pairwise_orderedInsertByKey {α : Type} (key : α → String) (x : α) :
    ∀ l, l.Pairwise (fun a b => strLe (key a) (key b) = true) →
      (orderedInsertByKey key x l).Pairwise
        (fun a b => strLe (key a) (key b) = true) := by
  intro l
  induction l with
  | nil => intro; simp [orderedInsertByKey]
  | cons y ys ih =>
    intro hp
    rw [List.pairwise_cons] at hp
    obtain ⟨hy, hys⟩ := hp
    by_cases h : strLe (key x) (key y) = true
    · rw [orderedInsertByKey, if_pos h, List.pairwise_cons]
      constructor
      · intro z hz
        rcases List.mem_cons.1 hz with rfl | hz'
        · exact h
        · exact strLe_trans h (hy z hz')
      · exact List.pairwise_cons.2 ⟨hy, hys⟩
    · rw [orderedInsertByKey, if_neg h, List.pairwise_cons]
      constructor
      · intro z hz
        rcases (mem_orderedInsertByKey key x z ys).1 hz with heq | hz'
        · subst heq
          rcases strLe_total (key z) (key y) with h' | h'
          · exact absurd h' h
          · exact h'
        · exact hy z hz'
      · exact ih hys

theorem pairwise_sortByKeyStable {α : Type} (key : α → String) :
    ∀ l : List α, (sortByKeyStable key l).Pairwise
      (fun a b => strLe (key a) (key b) = true) := by
  intro l
  induction l with
  | nil => simp [sortByKeyStable]
  | cons x xs ih => exact pairwise_orderedInsertByKey key x _ ih

theorem filter_key_orderedInsertByKey {α : Type} (key : α → String) (x : α)
    (d : String) : ∀ l,
    (orderedInsertByKey key x l).filter (fun a => key a = d) =
      if key x = d then x :: l.filter (fun a => key a = d)
      else l.filter (fun a => key a = d) := by
  intro l
  induction l with
  | nil =>
    simp only [orderedInsertByKey, List.filter_cons, List.filter_nil]
    split <;> simp_all
  | cons y ys ih =>
    by_cases h : strLe (key x) (key y) = true
    · rw [orderedInsertByKey, if_pos h]
      simp only [List.filter_cons]
      split <;> simp_all
    · rw [orderedInsertByKey, if_neg h]
      by_cases hx : key x = d
      · have hyne : ¬ key y = d := by
          intro hy
          apply h
          have hxy : key x = key y := hx.trans hy.symm
          rw [hxy]
          exact strLe_refl (key y)
        simp only [List.filter_cons, ih, if_pos hx]
        simp [hyne, hx]
      · simp only [List.filter_cons, ih, if_neg hx]

theorem filter_key_sortByKeyStable {α : Type} (key : α → String) (d : String) :
    ∀ l : List α, (sortByKeyStable key l).filter (fun a => key a = d) =
      l.filter (fun a => key a = d) := by
  intro l
  induction l with
  | nil => rfl
  | cons x xs ih =>
    rw [sortByKeyStable, filter_key_orderedInsertByKey key x d, List.filter_cons]
    by_cases hx : key x = d
    · simp [hx, ih]
    · simp [hx, ih]

theorem mem_sortByKeyStable {α : Type} (key : α → String) (a : α) :
    ∀ l : List α, a ∈ sortByKeyStable key l ↔ a ∈ l := by
  intro l
  induction l with
  | nil => simp [sortByKeyStable]
  | cons x xs ih =>
    rw [sortByKeyStable, mem_orderedInsertByKey, ih, List.mem_cons]

/-! ### Feed flow: `group_chatter_records` (processor.rs:699-816) -/

/-- `ChatterFeedItemRecord` (processor.rs:66-78). -/
structure ChatterFeedItemRecord where
  id : String
  parent_id : String
  body : String
  created_by_id : String
  created_date : String
deriving DecidableEq, Repr

/-- `ChatterCommentRecord` (processor.rs:80-96). -/
structure ChatterCommentRecord where
  id : String
  feed_item_id : String
  comment_body : String
  created_by_id : String
  created_date : String
  related_record_id : String
deriving DecidableEq, Repr

/-- `FeedItemWithComments` (processor.rs:123-130). -/
structure FeedItemWithComments where
  feed_item : ChatterFeedItemRecord
  comments : List ChatterCommentRecord
  feed_item_attachment_ids : List String
  comment_attachments : List (String × List String)
deriving DecidableEq, Repr

/-- `ProcessableChatterRecord` (processor.rs:132-137). -/
structure ProcessableChatterRecord where
  salesforce_id : String
  feed_items : List FeedItemWithComments
deriving DecidableEq, Repr

/-- Rust `Vec::dedup`: remove consecutive duplicates. -/
def dedupAdj : List String → List String
  | [] => []
  | [x] => [x]
  | x :: y :: rest =>
    if x = y then dedupAdj (y :: rest) else x :: dedupAdj (y :: rest)

/-- Rust `str::starts_with`, on the character lists underlying the
strings. -/
def strStartsWith (s pre : String) : Bool := pre.data.isPrefixOf s.data

/-- The 068→069 translation applied to a comment's `RelatedRecordId`
(processor.rs:752-769): a version reference (`068…`) is mapped through the
version→document map, falling back to the raw id verbatim when unmapped; a
document reference (`069…`) is kept as is; anything else is dropped
(`continue`). -/
def translateRelatedRecordId (content_version_to_document : List (String × String))
    (related : String) : Option String :=
  if strStartsWith related "068" then
    some (alGetD content_version_to_document related related)
  else if strStartsWith related "069" then some related
  else none

/-- One comment's contribution to `comment_attachments`
(processor.rs:745-782): nothing for an empty `RelatedRecordId`, otherwise
the translated reference (or nothing when the translation drops it). -/
def commentAttachmentValue (content_version_to_document : List (String × String))
    (c : ChatterCommentRecord) : Option String :=
  if c.related_record_id = "" then none
  else translateRelatedRecordId content_version_to_document c.related_record_id

/-- The `comment_attachments` loop of `group_chatter_records`
(processor.rs:742-782), keyed by comment id. -/
def buildCommentAttachments (content_version_to_document : List (String × String))
    (comments : List ChatterCommentRecord) : List (String × List String) :=
  alGroupBy (fun c => c.id) (commentAttachmentValue content_version_to_document)
    comments []

/-- The per-feed-item body of `group_chatter_records` (processor.rs:716-798):
sort the feed item's comments by `CreatedDate` (stable, ascending), union the
attachment ids from `ContentDocumentLink` and `FeedAttachment` then
`sort`+`dedup` them, and collect the per-comment attachment translations. -/
def mkFeedItemWithComments
    (comments_by_feed_item : List (String × List ChatterCommentRecord))
    (content_document_links feed_attachments : List (String × List String))
    (content_version_to_document : List (String × String))
    (fi : ChatterFeedItemRecord) : FeedItemWithComments :=
  let comments := sortByKeyStable (fun c => c.created_date)
    (alGetD comments_by_feed_item fi.id [])
  { feed_item := fi
    comments := comments
    feed_item_attachment_ids := dedupAdj (sortByKeyStable (fun s => s)
      (alGetD content_document_links fi.id [] ++ alGetD feed_attachments fi.id []))
    comment_attachments :=
      buildCommentAttachments content_version_to_document comments }

/-- `CsvProcessor::group_chatter_records` (processor.rs:700-816): iterate all
feed items of all prefixes, keep those whose parent is in
`found_hubspot_records`, bucket the assembled `FeedItemWithComments` by
parent id, then emit one `ProcessableChatterRecord` per parent with its feed
items sorted by `CreatedDate` (stable, ascending). -/
def group_chatter_records
    (feed_items_grouped : List (String × List ChatterFeedItemRecord))
    (comments_by_feed_item : List (String × List ChatterCommentRecord))
    (found_hubspot_records : List (String × String))
    (content_document_links feed_attachments : List (String × List String))
    (content_version_to_document : List (String × String)) :
    List ProcessableChatterRecord :=
  let records_by_parent := alGroupBy (fun fi => fi.parent_id)
    (fun fi =>
      if alContains found_hubspot_records fi.parent_id then
        some (mkFeedItemWithComments comments_by_feed_item content_document_links
          feed_attachments content_version_to_document fi)
      else none)
    ((feed_items_grouped.map Prod.snd).flatten) []
  records_by_parent.map (fun kv =>
    ⟨kv.1, sortByKeyStable (fun f => f.feed_item.created_date) kv.2⟩)

theorem mem_snd_alPush {κ α : Type} [DecidableEq κ] (k : κ) (v : α) :
    ∀ (m : List (κ × List α)) (kv : κ × List α) (x : α),
      kv ∈ alPush m k v → x ∈ kv.2 →
      (∃ kv' ∈ m, kv'.1 = kv.1 ∧ x ∈ kv'.2) ∨ (x = v ∧ kv.1 = k) := by
  intro m
  induction m with
  | nil =>
    intro kv x hkv hx
    simp only [alPush, List.mem_singleton] at hkv
    subst hkv
    simp only [List.mem_singleton] at hx
    exact Or.inr ⟨hx, rfl⟩
  | cons p rest ih =>
    intro kv x hkv hx
    obtain ⟨k₀, vs⟩ := p
    by_cases h0 : k₀ = k
    · subst h0
      rw [alPush, if_pos rfl] at hkv
      rcases List.mem_cons.1 hkv with heq | hmem
    /- the extended head bucket, or an untouched entry -/
      · subst heq
        rcases List.mem_append.1 hx with hx' | hx'
        · exact Or.inl ⟨(k₀, vs), List.mem_cons_self _ _, rfl, hx'⟩
        · simp only [List.mem_singleton] at hx'
          exact Or.inr ⟨hx', rfl⟩
      · exact Or.inl ⟨kv, List.mem_cons_of_mem _ hmem, rfl, hx⟩
    · rw [alPush, if_neg h0] at hkv
      rcases List.mem_cons.1 hkv with heq | hmem
      · exact Or.inl ⟨kv, List.mem_cons.2 (Or.inl heq), rfl, hx⟩
      · rcases ih kv x hmem hx with ⟨kv', hkv', h1, h2⟩ | hr
        · exact Or.inl ⟨kv', List.mem_cons_of_mem _ hkv', h1, h2⟩
        · exact Or.inr hr

theorem mem_snd_alGroupBy {κ α β : Type} [DecidableEq κ]
    (keyOf : β → κ) (valOf : β → Option α) :
    ∀ (l : List β) (acc : List (κ × List α)) (kv : κ × List α) (x : α),
      kv ∈ alGroupBy keyOf valOf l acc → x ∈ kv.2 →
      (∃ kv' ∈ acc, kv'.1 = kv.1 ∧ x ∈ kv'.2) ∨
      (∃ b ∈ l, valOf b = some x ∧ keyOf b = kv.1) := by
  intro l
  induction l with
  | nil =>
    intro acc kv x hkv hx
    exact Or.inl ⟨kv, hkv, rfl, hx⟩
  | cons b rest ih =>
    intro acc kv x hkv hx
    cases hv : valOf b with
    | none =>
      rw [alGroupBy, List.foldl_cons, hv] at hkv
      rcases ih acc kv x hkv hx with hl | ⟨b', hb', h1, h2⟩
      · exact Or.inl hl
      · exact Or.inr ⟨b', List.mem_cons_of_mem _ hb', h1, h2⟩
    | some v =>
      rw [alGroupBy, List.foldl_cons, hv] at hkv
      rcases ih _ kv x hkv hx with ⟨kv', hkv', h1, h2⟩ | ⟨b', hb', h1, h2⟩
      · rcases mem_snd_alPush (keyOf b) v acc kv' x hkv' h2 with ⟨kv'', h⟩ | ⟨hxv, hk⟩
        · exact Or.inl ⟨kv'', h.1, h.2.1.trans h1, h.2.2⟩
        · refine Or.inr ⟨b, List.mem_cons_self _ _, ?_, ?_⟩
          · rw [hv, hxv]
          · rw [← h1, hk]
      · exact Or.inr ⟨b', List.mem_cons_of_mem _ hb', h1, h2⟩

/-- Every `FeedItemWithComments` in the output of `group_chatter_records` is
the assembly `mkFeedItemWithComments` of some input feed item whose parent
was found in HubSpot, inside that parent's record. -/
theorem mem_group_chatter_records
    (feed_items_grouped : List (String × List ChatterFeedItemRecord))
    (comments_by_feed_item : List (String × List ChatterCommentRecord))
    (found_hubspot_records : List (String × String))
    (content_document_links feed_attachments : List (String × List String))
    (content_version_to_document : List (String × String))
    (rec : ProcessableChatterRecord)
    (hrec : rec ∈ group_chatter_records feed_items_grouped comments_by_feed_item
      found_hubspot_records content_document_links feed_attachments
      content_version_to_document)
    (fiwc : FeedItemWithComments) (hf : fiwc ∈ rec.feed_items) :
    ∃ fi ∈ (feed_items_grouped.map Prod.snd).flatten,
      alContains found_hubspot_records fi.parent_id = true ∧
      fi.parent_id = rec.salesforce_id ∧
      fiwc = mkFeedItemWithComments comments_by_feed_item content_document_links
        feed_attachments content_version_to_document fi := by
  unfold group_chatter_records at hrec
  rcases List.mem_map.1 hrec with ⟨kv, hkv, hrec'⟩
  subst hrec'
  simp only at hf
  have hf' : fiwc ∈ kv.2 :=
    (mem_sortByKeyStable (fun f => f.feed_item.created_date) fiwc kv.2).1 hf
  rcases mem_snd_alGroupBy _ _ _ [] kv fiwc hkv hf' with ⟨kv', hkv', _⟩ | hr
  · exact absurd hkv' (List.not_mem_nil kv')
  · rcases hr with ⟨fi, hfi, hval, hkey⟩
    by_cases hc : alContains found_hubspot_records fi.parent_id = true
    · rw [if_pos hc] at hval
      exact ⟨fi, hfi, hc, hkey, (Option.some_injective _ hval).symm⟩
    · rw [if_neg hc] at hval
      exact absurd hval (by simp)

/-- C6: in every assembled feed unit, the comments attached to a post are
sorted ascending by their `CreatedDate` string, and the sort is stable: for
each timestamp the comments carrying it appear exactly as they did, and in
the order they had, in the input comment list of that post. -/
theorem c6_comments_sorted_stable
    (feed_items_grouped : List (String × List ChatterFeedItemRecord))
    (comments_by_feed_item : List (String × List ChatterCommentRecord))
    (found_hubspot_records : List (String × String))
    (content_document_links feed_attachments : List (String × List String))
    (content_version_to_document : List (String × String))
    (rec : ProcessableChatterRecord)
    (hrec : rec ∈ group_chatter_records feed_items_grouped comments_by_feed_item
      found_hubspot_records content_document_links feed_attachments
      content_version_to_document)
    (fiwc : FeedItemWithComments) (hf : fiwc ∈ rec.feed_items) :
    fiwc.comments.Pairwise
      (fun a b => strLe a.created_date b.created_date = true) ∧
    ∀ d : String,
      fiwc.comments.filter (fun c => c.created_date = d) =
        (alGetD comments_by_feed_item fiwc.feed_item.id []).filter
          (fun c => c.created_date = d) := by
  obtain ⟨fi, _, _, _, hmk⟩ := mem_group_chatter_records feed_items_grouped
    comments_by_feed_item found_hubspot_records content_document_links
    feed_attachments content_version_to_document rec hrec fiwc hf
  constructor
  · rw [hmk]
    exact pairwise_sortByKeyStable
      (fun c : ChatterCommentRecord => c.created_date)
      (alGetD comments_by_feed_item fi.id [])
  · intro d
    rw [hmk]
    exact filter_key_sortByKeyStable
      (fun c : ChatterCommentRecord => c.created_date) d
      (alGetD comments_by_feed_item fi.id [])

/-- Concrete feed post for the C6 scenario. -/
def c6FeedItem : ChatterFeedItemRecord :=
  ⟨"0D5A", "001A", "post body", "005U", "2023-01-01"⟩

/-- Comments arriving in the order `[T3, T1, T2]`. -/
def c6CommentsByFeedItem : List (String × List ChatterCommentRecord) :=
  [("0D5A",
    [⟨"0D7c", "0D5A", "c3", "005U", "2023-03-03", ""⟩,
     ⟨"0D7a", "0D5A", "c1", "005U", "2023-01-01", ""⟩,
     ⟨"0D7b", "0D5A", "c2", "005U", "2023-02-02", ""⟩])]

/-- The assembled C6 unit. -/
def c6Unit : FeedItemWithComments :=
  mkFeedItemWithComments c6CommentsByFeedItem [] [] [] c6FeedItem

/-- C6 witness: for the input timestamps `[T3, T1, T2]` the assembled unit's
comment order is `[T1, T2, T3]`, sorted and stable. -/
theorem c6_comments_sorted_stable_witness :
    c6Unit.comments.Pairwise
      (fun a b => strLe a.created_date b.created_date = true) ∧
    c6Unit.comments.filter (fun c => c.created_date = "2023-02-02") =
      (alGetD c6CommentsByFeedItem c6Unit.feed_item.id []).filter
        (fun c => c.created_date = "2023-02-02") ∧
    c6Unit.comments.map (fun c => c.created_date) =
      ["2023-01-01", "2023-02-02", "2023-03-03"] :=
  ⟨(c6_comments_sorted_stable [("001", [c6FeedItem])] c6CommentsByFeedItem
      [("001A", "HS1")] [] [] [] ⟨"001A", [c6Unit]⟩ (by decide) c6Unit
      (by decide)).1,
   (c6_comments_sorted_stable [("001", [c6FeedItem])] c6CommentsByFeedItem
      [("001A", "HS1")] [] [] [] ⟨"001A", [c6Unit]⟩ (by decide) c6Unit
      (by decide)).2 "2023-02-02",
   by decide⟩

theorem filter_key_eq_singleton_of_nodup {α : Type} (key : α → String) :
    ∀ (l : List α) (c : α), (l.map key).Nodup → c ∈ l →
      l.filter (fun a => key a = key c) = [c] := by
  intro l
  induction l with
  | nil => intro c _ hc; exact absurd hc (List.not_mem_nil c)
  | cons h rest ih =>
    intro c hnd hc
    rw [List.map_cons, List.nodup_cons] at hnd
    obtain ⟨hnotin, hnd'⟩ := hnd
    rcases List.mem_cons.1 hc with heq | hc'
    · subst heq
      rw [List.filter_cons, if_pos (by simp)]
      have hrest : rest.filter (fun a => key a = key c) = [] := by
        rw [List.filter_eq_nil_iff]
        intro a ha hkey
        exact hnotin (by
          rw [← of_decide_eq_true hkey]
          exact List.mem_map_of_mem key ha)
      rw [hrest]
    · have hne : ¬ (key h = key c) := by
        intro heq
        exact hnotin (heq ▸ List.mem_map_of_mem key hc')
      rw [List.filter_cons, if_neg (by simpa using hne)]
      exact ih c hnd' hc'

/-- C10: within an assembled feed unit (with distinct comment ids), the
verbatim fallback applies only to `068` version references: a comment whose
non-empty `RelatedRecordId` starts with `068` but is missing from the
version→document map keeps the raw id verbatim as its attachment reference,
while a comment whose non-empty `RelatedRecordId` starts with neither `068`
nor `069` is dropped and contributes no attachment. -/
theorem c10_related_record_translation
    (feed_items_grouped : List (String × List ChatterFeedItemRecord))
    (comments_by_feed_item : List (String × List ChatterCommentRecord))
    (found_hubspot_records : List (String × String))
    (content_document_links feed_attachments : List (String × List String))
    (content_version_to_document : List (String × String))
    (rec : ProcessableChatterRecord)
    (hrec : rec ∈ group_chatter_records feed_items_grouped comments_by_feed_item
      found_hubspot_records content_document_links feed_attachments
      content_version_to_document)
    (fiwc : FeedItemWithComments) (hf : fiwc ∈ rec.feed_items)
    (hnodup : (fiwc.comments.map (fun c => c.id)).Nodup)
    (c : ChatterCommentRecord) (hc : c ∈ fiwc.comments)
    (hne : c.related_record_id ≠ "") :
    (strStartsWith c.related_record_id "068" = true →
      alGet content_version_to_document c.related_record_id = none →
      alGetD fiwc.comment_attachments c.id [] = [c.related_record_id]) ∧
    (strStartsWith c.related_record_id "068" = false →
      strStartsWith c.related_record_id "069" = false →
      alGetD fiwc.comment_attachments c.id [] = []) := by
  obtain ⟨fi, _, _, _, hmk⟩ := mem_group_chatter_records feed_items_grouped
    comments_by_feed_item found_hubspot_records content_document_links
    feed_attachments content_version_to_document rec hrec fiwc hf
  have hca : fiwc.comment_attachments =
      buildCommentAttachments content_version_to_document fiwc.comments := by
    rw [hmk]
    rfl
  have hchar : alGetD fiwc.comment_attachments c.id [] =
      (fiwc.comments.filter (fun c' => c'.id = c.id)).filterMap
        (commentAttachmentValue content_version_to_document) := by
    rw [hca]
    unfold buildCommentAttachments
    simpa [alGetD, alGet] using alGetD_alGroupBy (fun c => c.id)
      (commentAttachmentValue content_version_to_document) fiwc.comments c.id []
  have hsing : fiwc.comments.filter (fun c' => c'.id = c.id) = [c] :=
    filter_key_eq_singleton_of_nodup (fun c => c.id) fiwc.comments c hnodup hc
  rw [hsing] at hchar
  constructor
  · intro h68 hget
    rw [hchar]
    simp [commentAttachmentValue, translateRelatedRecordId, hne, h68, alGetD, hget]
  · intro h68 h69
    rw [hchar]
    simp [commentAttachmentValue, translateRelatedRecordId, hne, h68, h69]

/-- Concrete feed post for the C10 scenario. -/
def c10FeedItem : ChatterFeedItemRecord :=
  ⟨"0D5B", "003B", "p", "005U", "2023-01-01"⟩

/-- One comment with an unmapped `068` version reference, one with a
reference that is neither `068` nor `069`. -/
def c10CommentsByFeedItem : List (String × List ChatterCommentRecord) :=
  [("0D5B",
    [⟨"0D7x", "0D5B", "b1", "005U", "2023-01-02", "068V"⟩,
     ⟨"0D7y", "0D5B", "b2", "005U", "2023-01-03", "00Q1"⟩])]

/-- The assembled C10 unit (empty version→document map). -/
def c10Unit : FeedItemWithComments :=
  mkFeedItemWithComments c10CommentsByFeedItem [] [] [] c10FeedItem

/-- C10 witness: the unmapped `068V` reference is kept verbatim; the `00Q1`
reference contributes nothing. -/
theorem c10_related_record_translation_witness :
    alGetD c10Unit.comment_attachments "0D7x" [] = ["068V"] ∧
    alGetD c10Unit.comment_attachments "0D7y" [] = [] :=
  ⟨(c10_related_record_translation [("003", [c10FeedItem])] c10CommentsByFeedItem
      [("003B", "HS2")] [] [] [] ⟨"003B", [c10Unit]⟩ (by decide) c10Unit
      (by decide) (by decide)
      ⟨"0D7x", "0D5B", "b1", "005U", "2023-01-02", "068V"⟩
      (by decide) (by decide)).1 (by decide) (by decide),
   (c10_related_record_translation [("003", [c10FeedItem])] c10CommentsByFeedItem
      [("003B", "HS2")] [] [] [] ⟨"003B", [c10Unit]⟩ (by decide) c10Unit
      (by decide) (by decide)
      ⟨"0D7y", "0D5B", "b2", "005U", "2023-01-03", "00Q1"⟩
      (by decide) (by decide)).2 (by decide) (by decide)⟩

/-! ### Migration Executor, file units: `process_single_record`
(business.rs:407-491)

The HubSpot endpoints are an oracle; the calls the executor makes are
recorded in an event trace.  `get_file_by_path` can fail at the transport
level (`.await?` — the whole unit errors), report the file present, or
report it absent; `upload_file_from_base64` either yields a file id or
fails (base64 or HTTP — both are caught, logged, and skipped);
`create_note_for_record` succeeds or fails (caught, `note_created =
false`). -/

/-- `FileInfo` (processor.rs:37-45). -/
structure FileInfo where
  version_id : String
  path_on_client : String
  version_data : Option String
deriving DecidableEq, Repr

/-- Split at the last `'.'` (Rust `filename.rfind('.')` +
`split_at(dot_pos)`): the extension part keeps the dot. -/
def splitAtLastDot : List Char → Option (List Char × List Char)
  | [] => none
  | c :: cs =>
    match splitAtLastDot cs with
    | some (n, e) => some (c :: n, e)
    | none => if c = '.' then some ([], c :: cs) else none

/-- The derived upload filename (business.rs:421-428 and 912-917):
`{name}_{version_id}{ext.to_lowercase()}` when the client path has an
extension, `{path}_{version_id}` otherwise.  (`to_lowercase` is modelled by
the ASCII `Char.toLower`.) -/
def safeFilename (fd : FileInfo) : String :=
  match splitAtLastDot fd.path_on_client.data with
  | some (n, e) =>
    ⟨n⟩ ++ "_" ++ fd.version_id ++ ⟨e.map Char.toLower⟩
  | none => fd.path_on_client ++ "_" ++ fd.version_id

/-- The remote path probed by the idempotency check (business.rs:432). -/
def fileCheckPath (fd : FileInfo) : String := "salesforce/" ++ safeFilename fd

/-- A call made against the HubSpot API. -/
inductive HsEvent where
  | checkExists (path : String)
  | upload (filename : String)
  | createNote (recordId : String) (attachmentIds : List String)
deriving DecidableEq, Repr

/-- Oracle for the remote endpoints' responses. -/
structure HsOracle where
  fileExists : String → Except String (Option String)
  uploadFile : String → Option String
  createNote : String → Bool

/-- The per-file loop of `process_single_record` (business.rs:419-462):
for each content id with file info, derive the filename, check existence at
the derived path (a transport error aborts the unit via `?`), reuse the
existing file id when present, otherwise upload the inline payload when
there is one (a failed upload is logged and skipped).  Returns the trace,
and on success the collected file ids and the upload count. -/
def processFiles (o : HsOracle) (file_info : List (String × FileInfo)) :
    List String → List HsEvent × Except String (List String × Nat)
  | [] => ([], Except.ok ([], 0))
  | cid :: rest =>
    match alGet file_info cid with
    | none => processFiles o file_info rest
    | some fd =>
      match o.fileExists (fileCheckPath fd) with
      | Except.error e => ([HsEvent.checkExists (fileCheckPath fd)], Except.error e)
      | Except.ok (some existingId) =>
        let (evs, r) := processFiles o file_info rest
        (HsEvent.checkExists (fileCheckPath fd) :: evs,
         r.map (fun pr => (existingId :: pr.1, pr.2)))
      | Except.ok none =>
        match fd.version_data with
        | none =>
          let (evs, r) := processFiles o file_info rest
          (HsEvent.checkExists (fileCheckPath fd) :: evs, r)
        | some _ =>
          match o.uploadFile (safeFilename fd) with
          | some newId =>
            let (evs, r) := processFiles o file_info rest
            (HsEvent.checkExists (fileCheckPath fd) ::
              HsEvent.upload (safeFilename fd) :: evs,
             r.map (fun pr => (newId :: pr.1, pr.2 + 1)))
          | none =>
            let (evs, r) := processFiles o file_info rest
            (HsEvent.checkExists (fileCheckPath fd) ::
              HsEvent.upload (safeFilename fd) :: evs, r)

/-- `process_single_record` (business.rs:407-491): process the files, then
when at least one file id was collected, look up the HubSpot record id (an
absent id is an error) and create the note ("添付ファイル", the file ids);
note-creation failure is caught (`note_created = false`). -/
def process_single_record (o : HsOracle) (record : ProcessableRecord)
    (file_info : List (String × FileInfo))
    (hubspot_record_cache : List (String × String)) :
    List HsEvent × Except String (Nat × Bool) :=
  match processFiles o file_info record.content_document_ids with
  | (evs, Except.error e) => (evs, Except.error e)
  | (evs, Except.ok (fileIds, uploaded)) =>
    if fileIds.isEmpty then (evs, Except.ok (uploaded, false))
    else
      match alGet hubspot_record_cache record.salesforce_id with
      | none => (evs, Except.error "HubSpotレコードIDが見つかりません")
      | some hsId =>
        (evs ++ [HsEvent.createNote hsId fileIds],
         Except.ok (uploaded, o.createNote hsId))

/-- Events one content id produces when its existence check does not
transport-error. -/
def fileEvents (o : HsOracle) (file_info : List (String × FileInfo))
    (cid : String) : List HsEvent :=
  match alGet file_info cid with
  | none => []
  | some fd =>
    match o.fileExists (fileCheckPath fd) with
    | Except.error _ => [HsEvent.checkExists (fileCheckPath fd)]
    | Except.ok (some _) => [HsEvent.checkExists (fileCheckPath fd)]
    | Except.ok none =>
      match fd.version_data with
      | none => [HsEvent.checkExists (fileCheckPath fd)]
      | some _ => [HsEvent.checkExists (fileCheckPath fd),
                   HsEvent.upload (safeFilename fd)]

/-- The file ids one content id contributes (empty when it is skipped or
its upload fails). -/
def fileIdContrib (o : HsOracle) (file_info : List (String × FileInfo))
    (cid : String) : List String :=
  match alGet file_info cid with
  | none => []
  | some fd =>
    match o.fileExists (fileCheckPath fd) with
    | Except.error _ => []
    | Except.ok (some existingId) => [existingId]
    | Except.ok none =>
      match fd.version_data with
      | none => []
      | some _ =>
        match o.uploadFile (safeFilename fd) with
        | some newId => [newId]
        | none => []

/-- The upload-count contribution of one content id. -/
def fileUploadCount (o : HsOracle) (file_info : List (String × FileInfo))
    (cid : String) : Nat :=
  match alGet file_info cid with
  | none => 0
  | some fd =>
    match o.fileExists (fileCheckPath fd) with
    | Except.error _ => 0
    | Except.ok (some _) => 0
    | Except.ok none =>
      match fd.version_data with
      | none => 0
      | some _ =>
        match o.uploadFile (safeFilename fd) with
        | some _ => 1
        | none => 0

/-- When no existence check transport-errors, the files of a unit are
processed independently: trace, collected ids and upload count are the
concatenations of the per-file outcomes (so a failed upload drops only its
own file). -/
theorem processFiles_eq_flatMap (o : HsOracle)
    (file_info : List (String × FileInfo)) :
    ∀ cids : List String,
      (∀ cid ∈ cids, ∀ fd, alGet file_info cid = some fd →
        ∃ v, o.fileExists (fileCheckPath fd) = Except.ok v) →
      processFiles o file_info cids =
        (cids.flatMap (fileEvents o file_info),
         Except.ok (cids.flatMap (fileIdContrib o file_info),
           (cids.map (fileUploadCount o file_info)).sum)) := by
  intro cids
  induction cids with
  | nil => intro _; rfl
  | cons cid rest ih =>
    intro h
    have hrest := ih (fun c hc => h c (List.mem_cons_of_mem _ hc))
    cases hget : alGet file_info cid with
    | none =>
      simp only [processFiles, hget, hrest, List.flatMap_cons, List.map_cons,
        fileEvents, fileIdContrib, fileUploadCount, List.nil_append, List.sum_cons,
        Nat.zero_add]
    | some fd =>
      obtain ⟨v, hex⟩ := h cid (List.mem_cons_self _ _) fd hget
      cases v with
      | some existingId =>
        simp only [processFiles, hget, hex, hrest, List.flatMap_cons, List.map_cons,
          fileEvents, fileIdContrib, fileUploadCount, List.sum_cons,
          Except.map, List.singleton_append, Nat.zero_add, List.cons_append,
          List.nil_append]
      | none =>
        cases hvd : fd.version_data with
        | none =>
          simp only [processFiles, hget, hex, hvd, hrest, List.flatMap_cons,
            List.map_cons, fileEvents, fileIdContrib, fileUploadCount,
            List.sum_cons, List.singleton_append, Nat.zero_add, List.nil_append]
        | some payload =>
          cases hup : o.uploadFile (safeFilename fd) with
          | some newId =>
            simp only [processFiles, hget, hex, hvd, hup, hrest,
              List.flatMap_cons, List.map_cons, fileEvents, fileIdContrib,
              fileUploadCount, List.sum_cons, Except.map, List.cons_append,
              List.nil_append]
            rw [Nat.add_comm]
          | none =>
            simp only [processFiles, hget, hex, hvd, hup, hrest,
              List.flatMap_cons, List.map_cons, fileEvents, fileIdContrib,
              fileUploadCount, List.sum_cons, List.cons_append, List.nil_append,
              Nat.zero_add]

theorem upload_mem_flatMap_fileEvents (o : HsOracle)
    (file_info : List (String × FileInfo)) (fname : String) :
    ∀ cids : List String,
      HsEvent.upload fname ∈ cids.flatMap (fileEvents o file_info) →
      ∃ cid ∈ cids, ∃ fd, alGet file_info cid = some fd ∧
        fname = safeFilename fd ∧ fd.version_data.isSome = true ∧
        o.fileExists (fileCheckPath fd) = Except.ok none ∧
        ∃ pre post, cids.flatMap (fileEvents o file_info) =
          pre ++ HsEvent.checkExists (fileCheckPath fd) ::
            HsEvent.upload fname :: post := by
  intro cids
  induction cids with
  | nil => intro hmem; simp at hmem
  | cons cid rest ih =>
    intro hmem
    rw [List.flatMap_cons] at hmem
    rcases List.mem_append.1 hmem with hhead | htail
    · cases hget : alGet file_info cid with
      | none => simp only [fileEvents, hget] at hhead; simp at hhead
      | some fd =>
        cases hex : o.fileExists (fileCheckPath fd) with
        | error e => simp only [fileEvents, hget, hex] at hhead; simp at hhead
        | ok v =>
          cases v with
          | some existingId =>
            simp only [fileEvents, hget, hex] at hhead; simp at hhead
          | none =>
            cases hvd : fd.version_data with
            | none =>
              simp only [fileEvents, hget, hex, hvd] at hhead; simp at hhead
            | some payload =>
              simp only [fileEvents, hget, hex, hvd] at hhead
              have hfn : fname = safeFilename fd := by
                rcases List.mem_cons.1 hhead with h1 | h2
                · exact absurd h1 (by simp)
                · simpa using h2
              refine ⟨cid, List.mem_cons_self _ _, fd, hget, hfn, by simp [hvd],
                hex, [], rest.flatMap (fileEvents o file_info), ?_⟩
              rw [List.flatMap_cons]
              simp only [fileEvents, hget, hex, hvd, hfn]
              rfl
    · obtain ⟨cid', hcid', fd, hget, hfn, hvd, hex, pre, post, hdecomp⟩ := ih htail
      refine ⟨cid', List.mem_cons_of_mem _ hcid', fd, hget, hfn, hvd, hex,
        fileEvents o file_info cid ++ pre, post, ?_⟩
      rw [List.flatMap_cons, hdecomp, List.append_assoc]

/-- C2 (amended): the claimed behavior holds for FILE units
(`process_single_record`): each content item's existence is checked at the
derived path, the payload is uploaded only when the check reported the file
absent (every upload in the trace sits right after its check of the derived
path), and per-file outcomes are independent — an upload failure drops only
that file while the unit continues with the rest.  FEED units
(`process_chatter_migration`) however upload unconditionally: the chatter
attachment loop performs no existence check at all (still dropping only the
failed file). -/
theorem c2_amended (o : HsOracle) (record : ProcessableRecord)
    (file_info : List (String × FileInfo))
    (hubspot_record_cache : List (String × String))
    (h : ∀ cid ∈ record.content_document_ids, ∀ fd,
      alGet file_info cid = some fd →
      ∃ v, o.fileExists (fileCheckPath fd) = Except.ok v) :
    processFiles o file_info record.content_document_ids =
      (record.content_document_ids.flatMap (fileEvents o file_info),
       Except.ok (record.content_document_ids.flatMap (fileIdContrib o file_info),
         (record.content_document_ids.map (fileUploadCount o file_info)).sum)) ∧
    (∀ fname,
      HsEvent.upload fname ∈
        (process_single_record o record file_info hubspot_record_cache).1 →
      ∃ cid ∈ record.content_document_ids, ∃ fd,
        alGet file_info cid = some fd ∧ fname = safeFilename fd ∧
        fd.version_data.isSome = true ∧
        o.fileExists (fileCheckPath fd) = Except.ok none ∧
        ∃ pre post,
          (process_single_record o record file_info hubspot_record_cache).1 =
            pre ++ HsEvent.checkExists (fileCheckPath fd) ::
              HsEvent.upload fname :: post) := by
  have h1 := processFiles_eq_flatMap o file_info record.content_document_ids h
  refine ⟨h1, ?_⟩
  have hevs : ∃ tail : List HsEvent,
      (process_single_record o record file_info hubspot_record_cache).1 =
        record.content_document_ids.flatMap (fileEvents o file_info) ++ tail ∧
      ∀ f, HsEvent.upload f ∉ tail := by
    unfold process_single_record
    rw [h1]
    by_cases hempty : (record.content_document_ids.flatMap
        (fileIdContrib o file_info)).isEmpty
    · exact ⟨[], by simp [hempty], by simp⟩
    · cases hcache : alGet hubspot_record_cache record.salesforce_id with
      | none =>
        refine ⟨[], ?_, by simp⟩
        simp [hempty, hcache]
      | some hsId =>
        refine ⟨[HsEvent.createNote hsId (record.content_document_ids.flatMap
          (fileIdContrib o file_info))], ?_, by simp⟩
        simp [hempty, hcache]
  obtain ⟨tail, htr, hnoup⟩ := hevs
  intro fname hmem
  rw [htr] at hmem
  rcases List.mem_append.1 hmem with hmem' | hmem'
  · obtain ⟨cid, hcid, fd, hget, hfn, hvd, hex, pre, post, hdecomp⟩ :=
      upload_mem_flatMap_fileEvents o file_info fname
        record.content_document_ids hmem'
    refine ⟨cid, hcid, fd, hget, hfn, hvd, hex, pre, post ++ tail, ?_⟩
    rw [htr, hdecomp]
    simp [List.append_assoc]
  · exact absurd hmem' (hnoup fname)

/-- C2 amended, witness: a unit with two files — the first's upload fails,
the second is uploaded — still collects the second file's id, and the one
upload in the trace follows an absent-check of its derived path. -/
theorem c2_amended_witness :
    processFiles
        ⟨fun _ => Except.ok none,
         fun f => if f = "b_v2.pdf" then some "new-2" else none,
         fun _ => true⟩
        [("069A", ⟨"v1", "a.PDF", some "AA"⟩), ("069B", ⟨"v2", "b.pdf", some "BB"⟩)]
        ["069A", "069B"] =
      ([HsEvent.checkExists "salesforce/a_v1.pdf", HsEvent.upload "a_v1.pdf",
        HsEvent.checkExists "salesforce/b_v2.pdf", HsEvent.upload "b_v2.pdf"],
       Except.ok (["new-2"], 1)) :=
  (c2_amended
    ⟨fun _ => Except.ok none,
     fun f => if f = "b_v2.pdf" then some "new-2" else none,
     fun _ => true⟩
    ⟨"001A", ["069A", "069B"]⟩
    [("069A", ⟨"v1", "a.PDF", some "AA"⟩), ("069B", ⟨"v2", "b.pdf", some "BB"⟩)]
    []
    (by intro cid _ fd _; exact ⟨none, rfl⟩)).1

/-! ### Migration Executor, feed units: the chatter attachment upload loop
(business.rs:906-933) -/

/-- The attachment upload loop of `process_chatter_migration`
(business.rs:908-933): for each content id with file info carrying an inline
payload, upload it under the derived filename — with NO existence check;
a failed upload is logged and skipped. -/
def chatterUploadAttachments (o : HsOracle)
    (file_info : List (String × FileInfo)) :
    List String → List HsEvent × List String
  | [] => ([], [])
  | cid :: rest =>
    match alGet file_info cid with
    | none => chatterUploadAttachments o file_info rest
    | some fd =>
      match fd.version_data with
      | none => chatterUploadAttachments o file_info rest
      | some _ =>
        match o.uploadFile (safeFilename fd) with
        | some fid =>
          let (evs, ids) := chatterUploadAttachments o file_info rest
          (HsEvent.upload (safeFilename fd) :: evs, fid :: ids)
        | none =>
          let (evs, ids) := chatterUploadAttachments o file_info rest
          (HsEvent.upload (safeFilename fd) :: evs, ids)

/-- Oracle of the C2 counterexample: the remote reports every path as an
existing file, uploads succeed. -/
def c2Oracle : HsOracle :=
  ⟨fun _ => Except.ok (some "existing-id"), fun _ => some "new-id", fun _ => true⟩

/-- File info of the C2 counterexample. -/
def c2FileInfo : List (String × FileInfo) :=
  [("069A", ⟨"068V", "doc.TXT", some "QUJD"⟩)]

/-- C2 counterexample: in the FEED flow the file already exists remotely at
the derived path `salesforce/doc_068V.txt`, yet the executor uploads it
anyway, and its trace contains no existence check at all — refuting the
claim that every unit checks the derived path first and uploads only when
absent. -/
theorem c2_counterexample :
    (chatterUploadAttachments c2Oracle c2FileInfo ["069A"]).1 =
      [HsEvent.upload "doc_068V.txt"] ∧
    c2Oracle.fileExists "salesforce/doc_068V.txt" =
      Except.ok (some "existing-id") := by
  constructor
  · rfl
  · rfl

/-! ### Remote Resolver: `batch_find_records` (hubspot.rs:171-223)

One search call is issued per chunk of at most 100 ids.  The HTTP round trip
is an oracle response: a transport error (`send()`/`json()` failing — the
`?` operator aborts the whole function), an unsuccessful HTTP status (the
batch is silently skipped), or a successful response carrying
`(property value, record id)` pairs.  After every non-aborting call the
function sleeps the fixed `rate_limit_delay`. -/

/-- `HubSpotService::new` sets `rate_limit_delay: 100` ms (hubspot.rs:146). -/
def rate_limit_delay : Nat := 100

/-- The response of one batch search call. -/
inductive BatchResp where
  | transportErr (e : String)
  | httpFail
  | ok (pairs : List (String × String))
deriving DecidableEq, Repr

/-- An observable action of `batch_find_records`. -/
inductive BfEvent where
  | search (ids : List String)
  | sleep (ms : Nat)
deriving DecidableEq, Repr

/-- Structural helper for `chunks100`: the fuel bounds the number of
chunks; it never runs out when it starts at the list's length. -/
def chunksGo {α : Type} : Nat → List α → List (List α)
  | _, [] => []
  | 0, l => [l]
  | fuel + 1, x :: xs => ((x :: xs).take 100) :: chunksGo fuel ((x :: xs).drop 100)

/-- `property_values.chunks(batch_size)` with `batch_size = 100`
(hubspot.rs:178-181). -/
def chunks100 {α : Type} (l : List α) : List (List α) := chunksGo l.length l

theorem chunksGo_irrel {α : Type} :
    ∀ (f₁ : Nat) (l : List α) (f₂ : Nat), l.length ≤ f₁ → l.length ≤ f₂ →
      chunksGo f₁ l = chunksGo f₂ l := by
  intro f₁
  induction f₁ with
  | zero =>
    intro l f₂ h₁ _
    have : l = [] := List.length_eq_zero.1 (Nat.le_zero.1 h₁)
    subst this
    cases f₂ <;> rfl
  | succ f ih =>
    intro l f₂ h₁ h₂
    cases l with
    | nil => cases f₂ <;> rfl
    | cons x xs =>
      cases f₂ with
      | zero => simp at h₂
      | succ g =>
        simp only [chunksGo]
        rw [ih ((x :: xs).drop 100) g]
        · simp only [List.length_drop, List.length_cons] at h₁ ⊢
          omega
        · simp only [List.length_drop, List.length_cons] at h₂ ⊢
          omega

/-- The unfolding equation of `chunks100` on a non-empty list. -/
theorem chunks100_cons {α : Type} (x : α) (xs : List α) :
    chunks100 (x :: xs) =
      ((x :: xs).take 100) :: chunks100 ((x :: xs).drop 100) := by
  show chunksGo (xs.length + 1) (x :: xs) = _
  simp only [chunksGo]
  rw [chunksGo_irrel xs.length ((x :: xs).drop 100) ((x :: xs).drop 100).length]
  · rfl
  · simp only [List.length_drop, List.length_cons]
    omega
  · exact Nat.le_refl _

/-- The chunk loop of `batch_find_records`: on a transport error the `?`
aborts immediately (no sleep, accumulated results discarded); on an
unsuccessful status nothing is merged; on success the response pairs are
inserted into the accumulated map; each non-aborting iteration ends with the
fixed sleep. -/
def batchFindRecordsGo (search : List String → BatchResp) :
    List (List String) → List (String × String) →
    List BfEvent × Except String (List (String × String))
  | [], found => ([], Except.ok found)
  | c :: rest, found =>
    match search c with
    | BatchResp.transportErr e => ([BfEvent.search c], Except.error e)
    | BatchResp.httpFail =>
      let (evs, r) := batchFindRecordsGo search rest found
      (BfEvent.search c :: BfEvent.sleep rate_limit_delay :: evs, r)
    | BatchResp.ok pairs =>
      let (evs, r) := batchFindRecordsGo search rest (alInsertAll found pairs)
      (BfEvent.search c :: BfEvent.sleep rate_limit_delay :: evs, r)

/-- `HubSpotService::batch_find_records` (hubspot.rs:171-223). -/
def batch_find_records (search : List String → BatchResp)
    (property_values : List String) :
    List BfEvent × Except String (List (String × String)) :=
  batchFindRecordsGo search (chunks100 property_values) []

/-- The merged result map of the successful batches. -/
def mergeOkBatches (search : List String → BatchResp)
    (cs : List (List String)) (found : List (String × String)) :
    List (String × String) :=
  cs.foldl (fun acc c =>
    match search c with
    | BatchResp.ok pairs => alInsertAll acc pairs
    | _ => acc) found

theorem chunksGo_chunk_le {α : Type} :
    ∀ (fuel : Nat) (l : List α), l.length ≤ fuel →
      ∀ c ∈ chunksGo fuel l, c.length ≤ 100 := by
  intro fuel
  induction fuel with
  | zero =>
    intro l h c hc
    have : l = [] := List.length_eq_zero.1 (Nat.le_zero.1 h)
    subst this
    simp [chunksGo] at hc
  | succ f ih =>
    intro l h c hc
    cases l with
    | nil => simp [chunksGo] at hc
    | cons x xs =>
      simp only [chunksGo] at hc
      rcases List.mem_cons.1 hc with heq | hmem
      · subst heq
        simp
      · refine ih ((x :: xs).drop 100) ?_ c hmem
        simp only [List.length_drop, List.length_cons] at h ⊢
        omega

theorem chunks100_length_le {α : Type} :
    ∀ l : List α, ∀ c ∈ chunks100 l, c.length ≤ 100 := by
  intro l
  exact chunksGo_chunk_le l.length l (Nat.le_refl _)

theorem chunksGo_flatten {α : Type} :
    ∀ (fuel : Nat) (l : List α), l.length ≤ fuel →
      (chunksGo fuel l).flatten = l := by
  intro fuel
  induction fuel with
  | zero =>
    intro l h
    have : l = [] := List.length_eq_zero.1 (Nat.le_zero.1 h)
    subst this
    rfl
  | succ f ih =>
    intro l h
    cases l with
    | nil => rfl
    | cons x xs =>
      simp only [chunksGo, List.flatten_cons]
      rw [ih ((x :: xs).drop 100)
        (by simp only [List.length_drop, List.length_cons] at h ⊢; omega)]
      exact List.take_append_drop 100 (x :: xs)

theorem chunks100_flatten {α : Type} :
    ∀ l : List α, (chunks100 l).flatten = l := by
  intro l
  exact chunksGo_flatten l.length l (Nat.le_refl _)

theorem batchFindRecordsGo_no_transport (search : List String → BatchResp) :
    ∀ (cs : List (List String)) (found : List (String × String)),
      (∀ c ∈ cs, ∀ e, search c ≠ BatchResp.transportErr e) →
      batchFindRecordsGo search cs found =
        (cs.flatMap (fun c => [BfEvent.search c, BfEvent.sleep rate_limit_delay]),
         Except.ok (mergeOkBatches search cs found)) := by
  intro cs
  induction cs with
  | nil => intro found _; rfl
  | cons c rest ih =>
    intro found h
    have hrest := fun found' =>
      ih found' (fun c' hc' => h c' (List.mem_cons_of_mem _ hc'))
    cases hs : search c with
    | transportErr e =>
      exact absurd hs (h c (List.mem_cons_self _ _) e)
    | httpFail =>
      simp only [batchFindRecordsGo, hs, hrest found, List.flatMap_cons,
        mergeOkBatches, List.foldl_cons]
      rfl
    | ok pairs =>
      simp only [batchFindRecordsGo, hs, hrest (alInsertAll found pairs),
        List.flatMap_cons, mergeOkBatches, List.foldl_cons]
      rfl

/-- C5: `batch_find_records` splits the ids into batches of at most 100
covering the input in order, issues exactly one search per batch, merges the
per-batch result maps, and performs the fixed 100 ms rate-limit delay
unconditionally after every batch (in particular between any two
consecutive batches, regardless of how small the input is). -/
theorem c5_batching_and_delay (search : List String → BatchResp)
    (property_values : List String)
    (h : ∀ c ∈ chunks100 property_values, ∀ e,
      search c ≠ BatchResp.transportErr e) :
    (∀ c ∈ chunks100 property_values, c.length ≤ 100) ∧
    (chunks100 property_values).flatten = property_values ∧
    batch_find_records search property_values =
      ((chunks100 property_values).flatMap
        (fun c => [BfEvent.search c, BfEvent.sleep rate_limit_delay]),
       Except.ok (mergeOkBatches search (chunks100 property_values) [])) :=
  ⟨chunks100_length_le property_values, chunks100_flatten property_values,
   batchFindRecordsGo_no_transport search (chunks100 property_values) [] h⟩

/-- C5 witness: two ids resolve in a single batch whose search is followed
by the fixed delay; the response map is returned. -/
theorem c5_batching_and_delay_witness :
    (∀ c ∈ chunks100 ["003A", "003B"], c.length ≤ 100) ∧
    (chunks100 ["003A", "003B"]).flatten = ["003A", "003B"] ∧
    batch_find_records (fun _ => BatchResp.ok [("003A", "HS1")])
        ["003A", "003B"] =
      ([BfEvent.search ["003A", "003B"], BfEvent.sleep rate_limit_delay],
       Except.ok [("003A", "HS1")]) := by
  obtain ⟨h1, h2, h3⟩ := c5_batching_and_delay
    (fun _ => BatchResp.ok [("003A", "HS1")]) ["003A", "003B"]
    (fun c _ e => by simp)
  refine ⟨h1, h2, ?_⟩
  rw [h3]
  rfl

/-! ### The per-prefix pipeline of `process_file_mapping`
(business.rs:166-270 resolution, business.rs:277-387 execution)

A given prefix's `ObjectSummary` is touched only in that prefix's iteration
of the resolution loop (skip rows) and of the execution loop (success/error
rows), and `process_single_record` looks its record id up in the global
cache only at keys belonging to the prefix's own `found_records`; the two
phases are therefore collapsed into one per-prefix function, and the
prefix loop folds it over the prefixes. -/

/-- The counters of `ObjectSummary` (business.rs:23-37). -/
structure SummaryCounts where
  success_count : Nat
  skipped_count : Nat
  error_count : Nat
  uploaded_files : Nat
deriving DecidableEq, Repr

/-- The order-preserving view of `collect::<HashSet<_>>().into_iter()`
(business.rs:174-179): distinct elements, first occurrences first.  (The
real `HashSet` iteration order is unspecified; every fact proved below is
order-independent.) -/
def dedupKeepFirst {α : Type} [DecidableEq α] : List α → List α
  | [] => []
  | x :: xs => x :: (dedupKeepFirst xs).filter (fun a => a ≠ x)

/-- One iteration of the execution loop (business.rs:295-385): process the
record; on `Ok` add one success and the uploaded-file count, on `Err` add
one error.  The accumulator is `(successes, errors, uploads)`. -/
def execStep (o : HsOracle) (file_info : List (String × FileInfo))
    (found_records : List (String × String)) (acc : Nat × Nat × Nat)
    (r : ProcessableRecord) : Nat × Nat × Nat :=
  match (process_single_record o r file_info found_records).2 with
  | Except.ok pr => (acc.1 + 1, acc.2.1, acc.2.2 + pr.1)
  | Except.error _ => (acc.1, acc.2.1 + 1, acc.2.2)

/-- One prefix of `process_file_mapping`: collect the distinct Salesforce
ids, batch-search them (a failed call is logged and the prefix is skipped
with `continue` — no summary, no skip rows), write one skipped row per
missing id (guarded by `found < unique`), group the resolved records, then
process each one, counting one success (plus its uploads) or one error. -/
def runPrefixFile (search : List String → BatchResp) (o : HsOracle)
    (file_info : List (String × FileInfo))
    (records : List (String × String)) : Option SummaryCounts :=
  let unique_salesforce_ids := dedupKeepFirst (records.map Prod.fst)
  match (batch_find_records search unique_salesforce_ids).2 with
  | Except.error _ => none
  | Except.ok found_records =>
    let missing_ids := unique_salesforce_ids.filter
      (fun sfId => ! alContains found_records sfId)
    let skipped :=
      if found_records.length < unique_salesforce_ids.length then
        missing_ids.length
      else 0
    let processable_records := group_records_by_salesforce_id records found_records
    let execd := processable_records.foldl
      (execStep o file_info found_records) (0, 0, 0)
    some ⟨execd.1, skipped, execd.2.1, execd.2.2⟩

/-- The prefix loop of `process_file_mapping`: prefixes without a configured
mapping are skipped; a prefix whose batch search failed contributes no
summary (`continue`); the others contribute their per-prefix summary. -/
def process_file_mapping_prefixes (object_mappings : List String)
    (search : String → List String → BatchResp) (o : HsOracle)
    (file_info : List (String × FileInfo))
    (byPrefix : List (String × List (String × String))) :
    List (String × SummaryCounts) :=
  byPrefix.foldl (fun acc pr =>
    if pr.1 ∈ object_mappings then
      match runPrefixFile (search pr.1) o file_info pr.2 with
      | some s => acc ++ [(pr.1, s)]
      | none => acc
    else acc) []

/-- The 101 ids of the C3 counterexample: two batches. -/
def c3Ids : List String := List.replicate 100 "003A" ++ ["003B"]

/-- Search oracle of the C3 counterexample: the first (100-id) batch fails
at the transport level, the second would succeed. -/
def c3Search : List String → BatchResp := fun c =>
  if c = ["003B"] then BatchResp.ok [("003B", "HS1")]
  else BatchResp.transportErr "network error"

/-- C3 counterexample: when the first batch's search call fails, the whole
`batch_find_records` call aborts with that error — the second batch is never
searched (the trace stops after the first call) and its resolvable id is not
returned, refuting "only that batch's source ids are treated as unresolved
and resolution of the remaining batches of the same call still proceeds". -/
theorem c3_counterexample :
    (batch_find_records c3Search c3Ids).2 = Except.error "network error" ∧
    (batch_find_records c3Search c3Ids).1 =
      [BfEvent.search (List.replicate 100 "003A")] ∧
    c3Search ["003B"] = BatchResp.ok [("003B", "HS1")] := by
  refine ⟨rfl, rfl, rfl⟩

theorem mem_process_file_mapping_prefixes_step (object_mappings : List String)
    (search : String → List String → BatchResp) (o : HsOracle)
    (file_info : List (String × FileInfo)) (x : String × SummaryCounts) :
    ∀ (byPrefix : List (String × List (String × String)))
      (acc : List (String × SummaryCounts)),
      x ∈ acc →
      x ∈ byPrefix.foldl (fun acc pr =>
        if pr.1 ∈ object_mappings then
          match runPrefixFile (search pr.1) o file_info pr.2 with
          | some s => acc ++ [(pr.1, s)]
          | none => acc
        else acc) acc := by
  intro byPrefix
  induction byPrefix with
  | nil => intro acc h; exact h
  | cons pr rest ih =>
    intro acc h
    rw [List.foldl_cons]
    by_cases hm : pr.1 ∈ object_mappings
    · cases hrun : runPrefixFile (search pr.1) o file_info pr.2 with
      | none => simp only [if_pos hm, hrun]; exact ih acc h
      | some s =>
        simp only [if_pos hm, hrun]
        exact ih (acc ++ [(pr.1, s)]) (List.mem_append.2 (Or.inl h))
    · simp only [if_neg hm]; exact ih acc h

/-- C3 (amended): a batch whose search call returns an unsuccessful HTTP
status is skipped silently — its ids stay unresolved while the remaining
batches of the same call proceed and their merged results are returned (the
call succeeds whenever no batch fails at the transport level).  A batch
whose call fails at the transport level instead aborts `batch_find_records`
for the whole call; `process_file_mapping` catches and logs that error per
prefix and continues, so a prefix that resolves successfully contributes its
summary no matter how the searches of other prefixes fail. -/
theorem c3_amended (search : String → List String → BatchResp) (o : HsOracle)
    (file_info : List (String × FileInfo)) (object_mappings : List String)
    (byPrefix : List (String × List (String × String)))
    (p : String) (rp : List (String × String)) (s : SummaryCounts)
    (ids : List String)
    (hnt : ∀ c ∈ chunks100 ids, ∀ e, search p c ≠ BatchResp.transportErr e)
    (hmem : (p, rp) ∈ byPrefix) (hmap : p ∈ object_mappings)
    (hrun : runPrefixFile (search p) o file_info rp = some s) :
    (batch_find_records (search p) ids).2 =
      Except.ok (mergeOkBatches (search p) (chunks100 ids) []) ∧
    (p, s) ∈ process_file_mapping_prefixes object_mappings search o file_info
      byPrefix := by
  constructor
  · rw [batch_find_records,
      batchFindRecordsGo_no_transport (search p) (chunks100 ids) [] hnt]
  · unfold process_file_mapping_prefixes
    have main : ∀ (l : List (String × List (String × String)))
        (acc : List (String × SummaryCounts)), (p, rp) ∈ l →
        (p, s) ∈ l.foldl (fun acc pr =>
          if pr.1 ∈ object_mappings then
            match runPrefixFile (search pr.1) o file_info pr.2 with
            | some s => acc ++ [(pr.1, s)]
            | none => acc
          else acc) acc := by
      intro l
      induction l with
      | nil => intro acc h; exact absurd h (List.not_mem_nil _)
      | cons pr rest ih =>
        intro acc h
        rw [List.foldl_cons]
        rcases List.mem_cons.1 h with heq | hmem'
        · rw [← heq]
          simp only [if_pos hmap, hrun]
          exact mem_process_file_mapping_prefixes_step object_mappings search o
            file_info (p, s) rest (acc ++ [(p, s)])
            (List.mem_append.2 (Or.inr (List.mem_singleton.2 rfl)))
        · by_cases hm : pr.1 ∈ object_mappings
          · cases hrun' : runPrefixFile (search pr.1) o file_info pr.2 with
            | none => simp only [if_pos hm, hrun']; exact ih _ hmem'
            | some s' =>
              simp only [if_pos hm, hrun']
              exact ih _ hmem'
          · simp only [if_neg hm]; exact ih _ hmem'
    exact main byPrefix [] hmem

/-- Search oracle of the C3 witness: prefix "003" resolves, every other
prefix's calls fail at the transport level. -/
def c3wSearch : String → List String → BatchResp := fun p _ =>
  if p = "003" then BatchResp.ok [("003A", "HS1")]
  else BatchResp.transportErr "boom"

/-- Trivial executor oracle (no files involved). -/
def c3wOracle : HsOracle :=
  ⟨fun _ => Except.ok none, fun _ => none, fun _ => true⟩

/-- C3 amended, witness: prefix "001"'s search transport-errs, yet prefix
"003" still resolves and contributes its summary. -/
theorem c3_amended_witness :
    (batch_find_records (c3wSearch "003") ["003A"]).2 =
      Except.ok (mergeOkBatches (c3wSearch "003") (chunks100 ["003A"]) []) ∧
    ("003", (⟨1, 0, 0, 0⟩ : SummaryCounts)) ∈
      process_file_mapping_prefixes ["001", "003"] c3wSearch c3wOracle []
        [("001", [("001X", "069Z")]), ("003", [("003A", "069Y")])] :=
  c3_amended c3wSearch c3wOracle [] ["001", "003"]
    [("001", [("001X", "069Z")]), ("003", [("003A", "069Y")])]
    "003" [("003A", "069Y")] ⟨1, 0, 0, 0⟩ ["003A"]
    (fun c _ e => by simp [c3wSearch])
    (by decide) (by decide) rfl

/-! ### Counting lemmas for the C4 summary invariant -/

theorem mem_dedupKeepFirst {α : Type} [DecidableEq α] (a : α) :
    ∀ l : List α, a ∈ dedupKeepFirst l ↔ a ∈ l := by
  intro l
  induction l with
  | nil => simp [dedupKeepFirst]
  | cons x xs ih =>
    simp only [dedupKeepFirst, List.mem_cons, List.mem_filter, ih]
    by_cases hax : a = x
    · simp [hax]
    · simp [hax]

theorem nodup_dedupKeepFirst {α : Type} [DecidableEq α] :
    ∀ l : List α, (dedupKeepFirst l).Nodup := by
  intro l
  induction l with
  | nil => simp [dedupKeepFirst]
  | cons x xs ih =>
    rw [dedupKeepFirst, List.nodup_cons]
    refine ⟨?_, ih.filter _⟩
    intro hx
    have := (List.mem_filter.1 hx).2
    simp at this

theorem alKeys_alInsert {κ α : Type} [DecidableEq κ]
    (k : κ) (v : α) : ∀ m : List (κ × α),
    alKeys (alInsert m k v) =
      if alContains m k then alKeys m else alKeys m ++ [k] := by
  intro m
  induction m with
  | nil => simp [alInsert, alKeys, alContains, alGet]
  | cons p rest ih =>
    obtain ⟨k₀, v₀⟩ := p
    by_cases h0 : k₀ = k
    · subst h0
      simp [alInsert, alKeys, alContains, alGet]
    · rw [alInsert, if_neg h0]
      have hcontains : alContains ((k₀, v₀) :: rest) k = alContains rest k := by
        simp [alContains, alGet, h0]
      rw [hcontains]
      by_cases hc : alContains rest k
      · simp only [hc, if_true] at ih ⊢
        simp only [alKeys, List.map_cons] at ih ⊢
        rw [ih]
      · simp only [hc, if_false, Bool.false_eq_true] at ih ⊢
        simp only [alKeys, List.map_cons, List.cons_append] at ih ⊢
        rw [ih]

theorem alContains_iff_mem_alKeys {κ α : Type} [DecidableEq κ] (k : κ) :
    ∀ m : List (κ × α), alContains m k = true ↔ k ∈ alKeys m := by
  intro m
  induction m with
  | nil => simp [alContains, alGet, alKeys]
  | cons p rest ih =>
    obtain ⟨k₀, v₀⟩ := p
    by_cases h0 : k₀ = k
    · subst h0; simp [alContains, alGet, alKeys]
    · simp only [alContains, alGet, if_neg h0, alKeys, List.map_cons,
        List.mem_cons]
      rw [← alKeys, ← alContains, ih]
      constructor
      · exact Or.inr
      · intro h
        rcases h with heq | hm
        · exact absurd heq.symm h0
        · exact hm

theorem nodup_alKeys_alInsert {κ α : Type} [DecidableEq κ]
    (m : List (κ × α)) (k : κ) (v : α) (h : (alKeys m).Nodup) :
    (alKeys (alInsert m k v)).Nodup := by
  rw [alKeys_alInsert]
  by_cases hc : alContains m k
  · simpa [hc] using h
  · simp only [hc, if_false, Bool.false_eq_true]
    rw [List.nodup_append]
    refine ⟨h, List.nodup_singleton k, ?_⟩
    intro a ha hb
    rw [List.mem_singleton] at hb
    subst hb
    exact hc ((alContains_iff_mem_alKeys a m).2 ha)

theorem mem_alKeys_alInsert {κ α : Type} [DecidableEq κ]
    (m : List (κ × α)) (k a : κ) (v : α) :
    a ∈ alKeys (alInsert m k v) ↔ a ∈ alKeys m ∨ a = k := by
  rw [alKeys_alInsert]
  by_cases hc : alContains m k
  · simp only [hc, if_true]
    constructor
    · exact Or.inl
    · intro h
      rcases h with h | h
      · exact h
      · subst h; exact (alContains_iff_mem_alKeys a m).1 hc
  · simp [hc]

theorem nodup_alKeys_alInsertAll {κ α : Type} [DecidableEq κ] :
    ∀ (ps : List (κ × α)) (m : List (κ × α)), (alKeys m).Nodup →
      (alKeys (alInsertAll m ps)).Nodup := by
  intro ps
  induction ps with
  | nil => intro m h; exact h
  | cons p rest ih =>
    intro m h
    rw [alInsertAll, List.foldl_cons]
    exact ih _ (nodup_alKeys_alInsert m p.1 p.2 h)

theorem mem_alKeys_alInsertAll {κ α : Type} [DecidableEq κ] :
    ∀ (ps : List (κ × α)) (m : List (κ × α)) (a : κ),
      a ∈ alKeys (alInsertAll m ps) → a ∈ alKeys m ∨ a ∈ alKeys ps := by
  intro ps
  induction ps with
  | nil => intro m a h; exact Or.inl h
  | cons p rest ih =>
    intro m a h
    rw [alInsertAll, List.foldl_cons] at h
    rcases ih _ a h with hm | hp
    · rcases (mem_alKeys_alInsert m p.1 a p.2).1 hm with hm' | heq
      · exact Or.inl hm'
      · exact Or.inr (by simp [alKeys, heq])
    · exact Or.inr (by simp [alKeys] at hp ⊢; exact Or.inr hp)

theorem nodup_alKeys_mergeOkBatches (search : List String → BatchResp) :
    ∀ (cs : List (List String)) (found : List (String × String)),
      (alKeys found).Nodup → (alKeys (mergeOkBatches search cs found)).Nodup := by
  intro cs
  induction cs with
  | nil => intro found h; exact h
  | cons c rest ih =>
    intro found h
    rw [mergeOkBatches, List.foldl_cons]
    cases hs : search c with
    | transportErr e => exact ih found h
    | httpFail => exact ih found h
    | ok pairs => exact ih _ (nodup_alKeys_alInsertAll pairs found h)

theorem mem_alKeys_mergeOkBatches (search : List String → BatchResp) :
    ∀ (cs : List (List String)),
      (∀ c ∈ cs, ∀ ps, search c = BatchResp.ok ps → ∀ q ∈ ps, q.1 ∈ c) →
      ∀ (found : List (String × String)) (a : String),
        a ∈ alKeys (mergeOkBatches search cs found) →
        a ∈ alKeys found ∨ ∃ c ∈ cs, a ∈ c := by
  intro cs
  induction cs with
  | nil => intro _ found a h; exact Or.inl h
  | cons c rest ih =>
    intro hkeys found a h
    have hkeys' := fun c' hc' => hkeys c' (List.mem_cons_of_mem _ hc')
    rw [mergeOkBatches, List.foldl_cons] at h
    cases hs : search c with
    | transportErr e =>
      rw [hs] at h
      rcases ih hkeys' found a h with hm | ⟨c', hc', ha⟩
      · exact Or.inl hm
      · exact Or.inr ⟨c', List.mem_cons_of_mem _ hc', ha⟩
    | httpFail =>
      rw [hs] at h
      rcases ih hkeys' found a h with hm | ⟨c', hc', ha⟩
      · exact Or.inl hm
      · exact Or.inr ⟨c', List.mem_cons_of_mem _ hc', ha⟩
    | ok pairs =>
      rw [hs] at h
      rcases ih hkeys' _ a h with hm | ⟨c', hc', ha⟩
      · rcases mem_alKeys_alInsertAll pairs found a hm with hm' | hp
        · exact Or.inl hm'
        · rcases List.mem_map.1 hp with ⟨q, hq, hqa⟩
          exact Or.inr ⟨c, List.mem_cons_self _ _,
            hqa ▸ hkeys c (List.mem_cons_self _ _) pairs hs q hq⟩
      · exact Or.inr ⟨c', List.mem_cons_of_mem _ hc', ha⟩

theorem alKeys_alPush {κ α : Type} [DecidableEq κ] (k : κ) (v : α) :
    ∀ m : List (κ × List α),
      alKeys (alPush m k v) =
        if alContains m k then alKeys m else alKeys m ++ [k] := by
  intro m
  induction m with
  | nil => simp [alPush, alKeys, alContains, alGet]
  | cons p rest ih =>
    obtain ⟨k₀, vs⟩ := p
    by_cases h0 : k₀ = k
    · subst h0
      simp [alPush, alKeys, alContains, alGet]
    · rw [alPush, if_neg h0]
      have hcontains : alContains ((k₀, vs) :: rest) k = alContains rest k := by
        simp [alContains, alGet, h0]
      rw [hcontains]
      by_cases hc : alContains rest k
      · simp only [hc, if_true] at ih ⊢
        simp only [alKeys, List.map_cons] at ih ⊢
        rw [ih]
      · simp only [hc, if_false, Bool.false_eq_true] at ih ⊢
        simp only [alKeys, List.map_cons, List.cons_append] at ih ⊢
        rw [ih]

theorem nodup_alKeys_alPush {κ α : Type} [DecidableEq κ]
    (m : List (κ × List α)) (k : κ) (v : α) (h : (alKeys m).Nodup) :
    (alKeys (alPush m k v)).Nodup := by
  rw [alKeys_alPush]
  by_cases hc : alContains m k
  · simpa [hc] using h
  · simp only [hc, if_false, Bool.false_eq_true]
    rw [List.nodup_append]
    refine ⟨h, List.nodup_singleton k, ?_⟩
    intro a ha hb
    rw [List.mem_singleton] at hb
    subst hb
    exact hc ((alContains_iff_mem_alKeys a m).2 ha)

theorem mem_alKeys_alPush {κ α : Type} [DecidableEq κ]
    (m : List (κ × List α)) (k a : κ) (v : α) :
    a ∈ alKeys (alPush m k v) ↔ a ∈ alKeys m ∨ a = k := by
  rw [alKeys_alPush]
  by_cases hc : alContains m k
  · simp only [hc, if_true]
    constructor
    · exact Or.inl
    · intro h
      rcases h with h | h
      · exact h
      · subst h; exact (alContains_iff_mem_alKeys a m).1 hc
  · simp [hc]

theorem nodup_alKeys_alGroupBy {κ α β : Type} [DecidableEq κ]
    (keyOf : β → κ) (valOf : β → Option α) :
    ∀ (l : List β) (acc : List (κ × List α)), (alKeys acc).Nodup →
      (alKeys (alGroupBy keyOf valOf l acc)).Nodup := by
  intro l
  induction l with
  | nil => intro acc h; exact h
  | cons b rest ih =>
    intro acc h
    rw [alGroupBy, List.foldl_cons]
    cases hv : valOf b with
    | none => exact ih acc h
    | some v => exact ih _ (nodup_alKeys_alPush acc (keyOf b) v h)

theorem alGroupBy_cons_none {κ α β : Type} [DecidableEq κ]
    {keyOf : β → κ} {valOf : β → Option α} {b : β} (rest : List β)
    (acc : List (κ × List α)) (hv : valOf b = none) :
    alGroupBy keyOf valOf (b :: rest) acc = alGroupBy keyOf valOf rest acc := by
  unfold alGroupBy
  rw [List.foldl_cons, hv]

theorem alGroupBy_cons_some {κ α β : Type} [DecidableEq κ]
    {keyOf : β → κ} {valOf : β → Option α} {b : β} {v : α} (rest : List β)
    (acc : List (κ × List α)) (hv : valOf b = some v) :
    alGroupBy keyOf valOf (b :: rest) acc =
      alGroupBy keyOf valOf rest (alPush acc (keyOf b) v) := by
  unfold alGroupBy
  rw [List.foldl_cons, hv]

theorem mem_alKeys_alGroupBy {κ α β : Type} [DecidableEq κ]
    (keyOf : β → κ) (valOf : β → Option α) (a : κ) :
    ∀ (l : List β) (acc : List (κ × List α)),
      a ∈ alKeys (alGroupBy keyOf valOf l acc) ↔
        a ∈ alKeys acc ∨ ∃ b ∈ l, (valOf b).isSome = true ∧ keyOf b = a := by
  intro l
  induction l with
  | nil =>
    intro acc
    simp [alGroupBy]
  | cons b rest ih =>
    intro acc
    cases hv : valOf b with
    | none =>
      rw [alGroupBy_cons_none rest acc hv]
      rw [ih acc]
      constructor
      · intro h
        rcases h with h | ⟨b', hb', hsome, hkey⟩
        · exact Or.inl h
        · exact Or.inr ⟨b', List.mem_cons_of_mem _ hb', hsome, hkey⟩
      · intro h
        rcases h with h | ⟨b', hb', hsome, hkey⟩
        · exact Or.inl h
        · rcases List.mem_cons.1 hb' with heq | hb''
          · subst heq; rw [hv] at hsome; simp at hsome
          · exact Or.inr ⟨b', hb'', hsome, hkey⟩
    | some v =>
      rw [alGroupBy_cons_some rest acc hv]
      rw [ih _]
      constructor
      · intro h
        rcases h with h | ⟨b', hb', hsome, hkey⟩
        · rcases (mem_alKeys_alPush acc (keyOf b) a v).1 h with h' | heq
          · exact Or.inl h'
          · exact Or.inr ⟨b, List.mem_cons_self _ _, by simp [hv], heq.symm⟩
        · exact Or.inr ⟨b', List.mem_cons_of_mem _ hb', hsome, hkey⟩
      · intro h
        rcases h with h | ⟨b', hb', hsome, hkey⟩
        · exact Or.inl ((mem_alKeys_alPush acc (keyOf b) a v).2 (Or.inl h))
        · rcases List.mem_cons.1 hb' with heq | hb''
          · subst heq
            exact Or.inl ((mem_alKeys_alPush acc (keyOf b') a v).2 (Or.inr hkey.symm))
          · exact Or.inr ⟨b', hb'', hsome, hkey⟩

theorem length_filter_add_length_filter_not {α : Type} (p : α → Bool) :
    ∀ l : List α,
      (l.filter p).length + (l.filter (fun a => ! p a)).length = l.length := by
  intro l
  induction l with
  | nil => rfl
  | cons x xs ih =>
    by_cases hx : p x
    · simp [List.filter_cons, hx]
      omega
    · simp [List.filter_cons, hx]
      omega

theorem execStep_counts (o : HsOracle) (file_info : List (String × FileInfo))
    (found_records : List (String × String)) :
    ∀ (rs : List ProcessableRecord) (a b c : Nat),
      (rs.foldl (execStep o file_info found_records) (a, b, c)).1 +
        (rs.foldl (execStep o file_info found_records) (a, b, c)).2.1 =
        a + b + rs.length := by
  intro rs
  induction rs with
  | nil => intro a b c; simp
  | cons r rest ih =>
    intro a b c
    rw [List.foldl_cons]
    cases hr : (process_single_record o r file_info found_records).2 with
    | ok pr =>
      rw [show execStep o file_info found_records (a, b, c) r =
          (a + 1, b, c + pr.1) from by rw [execStep, hr]]
      rw [ih]
      simp only [List.length_cons]
      omega
    | error e =>
      rw [show execStep o file_info found_records (a, b, c) r =
          (a, b + 1, c) from by rw [execStep, hr]]
      rw [ih]
      simp only [List.length_cons]
      omega

/-- The value of `runPrefixFile` when the prefix's batch search succeeds. -/
theorem runPrefixFile_ok (search : List String → BatchResp) (o : HsOracle)
    (file_info : List (String × FileInfo)) (records : List (String × String))
    (F : List (String × String))
    (hbatch : (batch_find_records search
        (dedupKeepFirst (records.map Prod.fst))).2 = Except.ok F) :
    runPrefixFile search o file_info records = some
      ⟨((group_records_by_salesforce_id records F).foldl
          (execStep o file_info F) (0, 0, 0)).1,
       (if F.length < (dedupKeepFirst (records.map Prod.fst)).length then
          ((dedupKeepFirst (records.map Prod.fst)).filter
            (fun sfId => ! alContains F sfId)).length
        else 0),
       ((group_records_by_salesforce_id records F).foldl
          (execStep o file_info F) (0, 0, 0)).2.1,
       ((group_records_by_salesforce_id records F).foldl
          (execStep o file_info F) (0, 0, 0)).2.2⟩ := by
  unfold runPrefixFile
  dsimp only
  rw [hbatch]

/-- C4 counterexample: a prefix with one distinct parent id whose (only)
batch search call fails contributes NO summary at all — every counter stays
0 while one distinct parent was observed during resolution, so
`success + skipped + error = distinct parents` fails for that prefix. -/
theorem c4_counterexample :
    runPrefixFile (fun _ => BatchResp.transportErr "network error") c3wOracle
        [] [("001A", "069X")] = none ∧
    (dedupKeepFirst (([("001A", "069X")] : List (String × String)).map
        Prod.fst)).length = 1 :=
  ⟨rfl, rfl⟩

/-- C4 (amended): for every prefix whose batch searches all complete at the
transport level (failed HTTP statuses allowed) and whose search responses
mention only queried ids, the summary exists and satisfies
`success_count + skipped_count + error_count` = number of distinct parent
ids observed for that prefix during resolution.  When the prefix's search
call fails at the transport level, no summary is produced and its parents
are counted nowhere. -/
theorem c4_amended (search : List String → BatchResp) (o : HsOracle)
    (file_info : List (String × FileInfo)) (records : List (String × String))
    (hnt : ∀ c ∈ chunks100 (dedupKeepFirst (records.map Prod.fst)), ∀ e,
      search c ≠ BatchResp.transportErr e)
    (hkeys : ∀ c ∈ chunks100 (dedupKeepFirst (records.map Prod.fst)), ∀ ps,
      search c = BatchResp.ok ps → ∀ q ∈ ps, q.1 ∈ c) :
    ∃ s, runPrefixFile search o file_info records = some s ∧
      s.success_count + s.skipped_count + s.error_count =
        (dedupKeepFirst (records.map Prod.fst)).length := by
  have hbatch : (batch_find_records search
      (dedupKeepFirst (records.map Prod.fst))).2 =
      Except.ok (mergeOkBatches search
        (chunks100 (dedupKeepFirst (records.map Prod.fst))) []) := by
    rw [batch_find_records,
      batchFindRecordsGo_no_transport search _ [] hnt]
  have hrun := runPrefixFile_ok search o file_info records _ hbatch
  refine ⟨_, hrun, ?_⟩
  dsimp only
  set U := dedupKeepFirst (records.map Prod.fst) with hU
  set F := mergeOkBatches search (chunks100 U) [] with hF
  have hUnodup : U.Nodup := hU ▸ nodup_dedupKeepFirst (records.map Prod.fst)
  have hkeysF_nodup : (alKeys F).Nodup := by
    rw [hF]
    exact nodup_alKeys_mergeOkBatches search _ [] (by simp [alKeys])
  have hkeysF_sub : ∀ a ∈ alKeys F, a ∈ U := by
    intro a ha
    rw [hF] at ha
    rcases mem_alKeys_mergeOkBatches search _ hkeys [] a ha with h | ⟨c, hc, hac⟩
    · simp [alKeys] at h
    · rw [← chunks100_flatten U]
      exact List.mem_flatten.2 ⟨c, hc, hac⟩
  have hperm : (alKeys F).Perm (U.filter (fun x => alContains F x)) := by
    rw [List.perm_ext_iff_of_nodup hkeysF_nodup (hUnodup.filter _)]
    intro a
    constructor
    · intro ha
      exact List.mem_filter.2 ⟨hkeysF_sub a ha, by
        simpa using (alContains_iff_mem_alKeys a F).2 ha⟩
    · intro ha
      obtain ⟨_, hq⟩ := List.mem_filter.1 ha
      exact (alContains_iff_mem_alKeys a F).1 (by simpa using hq)
  have hlenF : F.length = (U.filter (fun x => alContains F x)).length := by
    have h1 : F.length = (alKeys F).length := (List.length_map F Prod.fst).symm
    rw [h1, hperm.length_eq]
  have hsplit := length_filter_add_length_filter_not
    (fun x => alContains F x) U
  have hskip_eq : (if F.length < U.length then
      (U.filter (fun sfId => ! alContains F sfId)).length else 0) =
      (U.filter (fun sfId => ! alContains F sfId)).length := by
    by_cases hg : F.length < U.length
    · rw [if_pos hg]
    · rw [if_neg hg]
      omega
  have hproc_len : (group_records_by_salesforce_id records F).length =
      (U.filter (fun x => alContains F x)).length := by
    unfold group_records_by_salesforce_id
    rw [List.length_map]
    have hkeylen : (alGroupBy Prod.fst
        (fun p : String × String =>
          if alContains F p.1 then some p.2 else none) records []).length =
        (alKeys (alGroupBy Prod.fst
          (fun p : String × String =>
            if alContains F p.1 then some p.2 else none) records [])).length :=
      (List.length_map _ Prod.fst).symm
    rw [hkeylen]
    have hgnodup : (alKeys (alGroupBy Prod.fst
        (fun p : String × String =>
          if alContains F p.1 then some p.2 else none) records [])).Nodup :=
      nodup_alKeys_alGroupBy _ _ records [] (by simp [alKeys])
    have hgperm : (alKeys (alGroupBy Prod.fst
        (fun p : String × String =>
          if alContains F p.1 then some p.2 else none) records [])).Perm
        (U.filter (fun x => alContains F x)) := by
      rw [List.perm_ext_iff_of_nodup hgnodup (hUnodup.filter _)]
      intro a
      rw [mem_alKeys_alGroupBy]
      constructor
      · intro h
        rcases h with h | ⟨b, hb, hsome, hkey⟩
        · simp [alKeys] at h
        · have hcont : alContains F b.1 = true := by
            by_cases hc : alContains F b.1
            · exact hc
            · rw [if_neg hc] at hsome; simp at hsome
          refine List.mem_filter.2 ⟨?_, by simpa using hkey ▸ hcont⟩
          rw [hU, mem_dedupKeepFirst]
          exact hkey ▸ List.mem_map_of_mem Prod.fst hb
      · intro ha
        obtain ⟨haU, hq⟩ := List.mem_filter.1 ha
        rw [hU, mem_dedupKeepFirst] at haU
        rcases List.mem_map.1 haU with ⟨b, hb, hba⟩
        refine Or.inr ⟨b, hb, ?_, hba⟩
        rw [hba, if_pos (by simpa using hq)]
        rfl
    rw [hgperm.length_eq]
  have hexec := execStep_counts o file_info F
    (group_records_by_salesforce_id records F) 0 0 0
  rw [hskip_eq]
  omega

/-- C4 amended, witness: two link rows, two distinct parents, one resolves
(success), one is missing (skipped): 1 + 1 + 0 = 2. -/
theorem c4_amended_witness :
    ∃ s, runPrefixFile
        (fun _ => BatchResp.ok [("001A", "HS1")]) c3wOracle []
        [("001A", "069X"), ("001B", "069Y")] = some s ∧
      s.success_count + s.skipped_count + s.error_count =
        (dedupKeepFirst (([("001A", "069X"), ("001B", "069Y")] :
          List (String × String)).map Prod.fst)).length :=
  c4_amended (fun _ => BatchResp.ok [("001A", "HS1")]) c3wOracle []
    [("001A", "069X"), ("001B", "069Y")]
    (fun c _ e => by simp)
    (fun c hc ps hps q hq => by
      have hch : chunks100 (dedupKeepFirst
          (([("001A", "069X"), ("001B", "069Y")] :
            List (String × String)).map Prod.fst)) = [["001A", "001B"]] := rfl
      rw [hch] at hc
      have hc' : c = ["001A", "001B"] := List.mem_singleton.1 hc
      subst hc'
      cases hps
      rcases List.mem_singleton.1 hq with rfl
      decide)

/-! ### Input validation and run prelude (processor.rs:347-401,
business.rs:86-164)

`process_file_mapping` validates the CSV files (step 1), authenticates
(step 2), extracts the link rows (step 3), loads the file info (step 4) and
only then creates the audit CSV and writes its header (step 5).  The
file-system- and network-dependent steps are abstracted into an environment
carrying each step's outcome; the completed phases are traced so that
"aborts before any row processing and before the audit file is created" is a
statement about the trace. -/

/-- A CSV input file: whether the path exists, and its header row. -/
structure CsvFile where
  present : Bool
  headers : List String
deriving DecidableEq, Repr

/-- `CsvProcessor::validate_csv_files` (processor.rs:347-401): existence of
both files, then the required columns of ContentVersion.csv
(`Id`, `ContentDocumentId`, `PathOnClient`), then those of
ContentDocumentLink.csv (`LinkedEntityId`, `ContentDocumentId`), erroring on
the first missing item. -/
def validate_csv_files (content_version content_document_link : CsvFile) :
    Except String Unit :=
  if ! content_version.present then
    Except.error "ContentVersion.csvが見つかりません"
  else if ! content_document_link.present then
    Except.error "ContentDocumentLink.csvが見つかりません"
  else
    match ["Id", "ContentDocumentId", "PathOnClient"].find?
        (fun col => ! content_version.headers.contains col) with
    | some col => Except.error ("ContentVersion.csvに必須カラムがありません: " ++ col)
    | none =>
      match ["LinkedEntityId", "ContentDocumentId"].find?
          (fun col => ! content_document_link.headers.contains col) with
      | some col =>
        Except.error ("ContentDocumentLink.csvに必須カラムがありません: " ++ col)
      | none => Except.ok ()

/-- A completed stage of the `process_file_mapping` prelude. -/
inductive FmPhase where
  | validated
  | authenticated
  | rowsRead
  | fileInfoRead
  | auditCsvCreated
deriving DecidableEq, Repr

/-- The outcomes of the environment-dependent steps of
`process_file_mapping`. -/
structure FmEnv where
  content_version : CsvFile
  content_document_link : CsvFile
  credentials : Option String
  extract_result : Except String Unit
  file_info_result : Except String Unit
  audit_create_result : Except String Unit
deriving Repr

/-- Steps 1–5 of `process_file_mapping` (business.rs:86-164), in source
order, each aborting the run with the source's error; the returned list is
the trace of completed phases (`rowsRead` marks the start of link-row
processing in `extract_target_records`, `auditCsvCreated` the creation of
the result CSV and its header row). -/
def process_file_mapping_prelude (env : FmEnv) :
    List FmPhase × Except String Unit :=
  match validate_csv_files env.content_version env.content_document_link with
  | Except.error e => ([], Except.error e)
  | Except.ok _ =>
    match env.credentials with
    | none =>
      ([FmPhase.validated],
       Except.error "認証情報が見つかりません。再ログインしてください。")
    | some _ =>
      match env.extract_result with
      | Except.error e =>
        ([FmPhase.validated, FmPhase.authenticated, FmPhase.rowsRead],
         Except.error ("レコード抽出エラー: " ++ e))
      | Except.ok _ =>
        match env.file_info_result with
        | Except.error e =>
          ([FmPhase.validated, FmPhase.authenticated, FmPhase.rowsRead,
            FmPhase.fileInfoRead],
           Except.error ("ファイル情報取得エラー: " ++ e))
        | Except.ok _ =>
          match env.audit_create_result with
          | Except.error e =>
            ([FmPhase.validated, FmPhase.authenticated, FmPhase.rowsRead,
              FmPhase.fileInfoRead],
             Except.error ("CSVファイル作成エラー: " ++ e))
          | Except.ok _ =>
            ([FmPhase.validated, FmPhase.authenticated, FmPhase.rowsRead,
              FmPhase.fileInfoRead, FmPhase.auditCsvCreated],
             Except.ok ())

/-- C7: when the link CSV lacks the required `ContentDocumentId` header (or
any earlier validation failure fires), `process_file_mapping` returns an
error straight from validation: its trace is empty — in particular no row
was processed and the audit CSV was never created. -/
theorem c7_missing_header_aborts (env : FmEnv)
    (h : "ContentDocumentId" ∉ env.content_document_link.headers) :
    (∃ e, process_file_mapping_prelude env = ([], Except.error e)) ∧
    FmPhase.rowsRead ∉ (process_file_mapping_prelude env).1 ∧
    FmPhase.auditCsvCreated ∉ (process_file_mapping_prelude env).1 := by
  have hval : ∃ e, validate_csv_files env.content_version
      env.content_document_link = Except.error e := by
    have hcontains : env.content_document_link.headers.contains
        "ContentDocumentId" = false := by
      cases helem : env.content_document_link.headers.contains
          "ContentDocumentId" with
      | false => rfl
      | true => exact absurd (List.mem_of_elem_eq_true helem) h
    unfold validate_csv_files
    by_cases h1 : env.content_version.present
    · by_cases h2 : env.content_document_link.present
      · cases hcv : ["Id", "ContentDocumentId", "PathOnClient"].find?
            (fun col => ! env.content_version.headers.contains col) with
        | some col =>
          exact ⟨"ContentVersion.csvに必須カラムがありません: " ++ col,
            by simp [h1, h2, hcv]⟩
        | none =>
          have hcdl : ∃ col, ["LinkedEntityId", "ContentDocumentId"].find?
              (fun col => ! env.content_document_link.headers.contains col) =
              some col := by
            by_cases hle : env.content_document_link.headers.contains
                "LinkedEntityId"
            · refine ⟨"ContentDocumentId", ?_⟩
              have hle2 : "LinkedEntityId" ∈ env.content_document_link.headers :=
                List.mem_of_elem_eq_true hle
              simp [List.find?, hle2, h]
            · refine ⟨"LinkedEntityId", ?_⟩
              have hle2 : "LinkedEntityId" ∉ env.content_document_link.headers :=
                fun hm => hle (List.elem_eq_true_of_mem hm)
              simp [List.find?, hle2]
          obtain ⟨col, hcol⟩ := hcdl
          refine ⟨"ContentDocumentLink.csvに必須カラムがありません: " ++ col, ?_⟩
          simp only [List.contains, List.elem_eq_mem] at hcol
          simp [h1, h2, hcv, hcol]
      · exact ⟨"ContentDocumentLink.csvが見つかりません", by simp [h1, h2]⟩
    · exact ⟨"ContentVersion.csvが見つかりません", by simp [h1]⟩
  obtain ⟨e, he⟩ := hval
  have hrun : process_file_mapping_prelude env = ([], Except.error e) := by
    unfold process_file_mapping_prelude
    rw [he]
  rw [hrun]
  exact ⟨⟨e, rfl⟩, List.not_mem_nil _, List.not_mem_nil _⟩

/-- C7 witness: a link CSV with only `LinkedEntityId` in its header makes
the run abort with no phase completed. -/
theorem c7_missing_header_aborts_witness :
    (∃ e, process_file_mapping_prelude
        ⟨⟨true, ["Id", "ContentDocumentId", "PathOnClient"]⟩,
         ⟨true, ["LinkedEntityId"]⟩, some "token",
         Except.ok (), Except.ok (), Except.ok ()⟩ = ([], Except.error e)) ∧
    FmPhase.rowsRead ∉ (process_file_mapping_prelude
        ⟨⟨true, ["Id", "ContentDocumentId", "PathOnClient"]⟩,
         ⟨true, ["LinkedEntityId"]⟩, some "token",
         Except.ok (), Except.ok (), Except.ok ()⟩).1 ∧
    FmPhase.auditCsvCreated ∉ (process_file_mapping_prelude
        ⟨⟨true, ["Id", "ContentDocumentId", "PathOnClient"]⟩,
         ⟨true, ["LinkedEntityId"]⟩, some "token",
         Except.ok (), Except.ok (), Except.ok ()⟩).1 :=
  c7_missing_header_aborts
    ⟨⟨true, ["Id", "ContentDocumentId", "PathOnClient"]⟩,
     ⟨true, ["LinkedEntityId"]⟩, some "token",
     Except.ok (), Except.ok (), Except.ok ()⟩ (by decide)
